import Mathlib

/-!
Verification of the schema-to-Go-type generator in `codegen/jrpc/jrpc.go`
(repository inference-gateway/tools).

The Go source is shallowly embedded: Go strings are modelled as `String`
(lists of characters; all inputs the claims touch are ASCII, where Go's
byte-level operations coincide with character-level ones), Go's
`map[string]any` JSON trees as `JValue` with association-list objects
carrying an explicit iteration order, and the sequence of `WriteString`
calls of a generation run as a `List String` of chunks.
-/

set_option maxRecDepth 8192

namespace JrpcGen

/-! ### ASCII character helpers (models of the Go `strings`/`cases` operations)

The inputs these act on inside the generator are ASCII, where the core
`Char.isLower`/`Char.isUpper`/`Char.isDigit`/`Char.toUpper`/`Char.toLower`
coincide with Go's `unicode` behaviour. -/

/-- Characters kept by the `cleanName` filter of `convertToGoFieldName`:
alphanumerics and the underscore. -/
def isIdentChar (c : Char) : Bool :=
  c.isLower || c.isUpper || c.isDigit || c = '_'

/-- The cutset of `strings.TrimLeft(name, "_0123456789")`. -/
def isTrimChar (c : Char) : Bool := c = '_' || c.isDigit

/-! ### The identifier synthesizer `convertToGoFieldName` -/

/-- `DefaultAcronyms` of `jrpc.go`: the keys of the default acronym map
(every stored value is `true`). -/
def defaultAcronyms : List String :=
  ["id", "uri", "url", "api", "html", "http", "https", "json", "jsonrpc",
   "rpc", "mime", "sse", "uuid", "sql", "tcp", "udp", "jwt", "oauth",
   "tls", "ssl", "xml", "csv", "pdf"]

/-- An acronym table is modelled as its membership test: `acr tok = true`
means `acronyms[tok]` reads `true` in the merged Go map. -/
abbrev AcrTable := String → Bool

/-- Membership test of the default acronym map. -/
def defaultAcr : AcrTable := fun tok => defaultAcronyms.contains tok

/-- The camel-case part splitter of `convertToGoFieldName`: a new part is
started at every uppercase letter immediately preceded by a lowercase
letter (`current` is never empty after the first character, so the
`current.Len() > 0` guard of the Go loop is always satisfied there). -/
def splitCamelAux (cur : List Char) (prev : Char) : List Char → List (List Char)
  | [] => [cur.reverse]
  | c :: rest =>
    if c.isUpper && prev.isLower then
      cur.reverse :: splitCamelAux [c] c rest
    else
      splitCamelAux (c :: cur) c rest

/-- The `parts` loop of `convertToGoFieldName` (lines 587-603). -/
def splitCamelGo : List Char → List (List Char)
  | [] => []
  | c :: rest => splitCamelAux [c] c rest

/-- `strings.Split(s, sep)` for a single-character separator. -/
def splitOnChar (sep : Char) : List Char → List (List Char)
  | [] => [[]]
  | c :: rest =>
    if c = sep then [] :: splitOnChar sep rest
    else
      match splitOnChar sep rest with
      | p :: ps => (c :: p) :: ps
      | [] => [[c]]

/-- `strings.Split(s, "_")`. -/
def splitUnd : List Char → List (List Char) := splitOnChar '_'

/-- Model of `cases.Title(language.English).String` on an already
lowercased ASCII-alphanumeric token (the only shape the generator feeds
it): a letter is uppercased when it starts the token or follows a
non-cased character (a digit); every other character is unchanged.
`boundary` records whether the previous character was non-cased. -/
def goTitleAux (boundary : Bool) : List Char → List Char
  | [] => []
  | c :: rest =>
    if c.isLower then
      (if boundary then c.toUpper else c) :: goTitleAux false rest
    else
      c :: goTitleAux (!(c.isLower || c.isUpper)) rest

def goTitle (cs : List Char) : List Char := goTitleAux true cs

/-- The three `strings.ReplaceAll` calls normalising `-`, `.` and a space
to `_` (performed left to right, they act independently per character). -/
def replaceSepChar (c : Char) : Char :=
  if c = '-' || c = '.' || c = ' ' then '_' else c

/-- `ReplaceAll` normalisation followed by the `cleanName` filter. -/
def cleanedName (n1 : List Char) : List Char :=
  (n1.map replaceSepChar).filter isIdentChar

/-- Camel-case split followed by the `_`-split and the drop of empty
sub-parts (the `finalParts` loop). -/
def finalPartsOf (n3 : List Char) : List (List Char) :=
  ((splitCamelGo n3).flatMap splitUnd).filter (· ≠ [])

/-- Per-part capitalisation: acronym parts fully uppercased, all others
title-cased (both after lowercasing). -/
def mapPart (acr : AcrTable) (p : List Char) : List Char :=
  let lp := p.map Char.toLower
  if acr ⟨lp⟩ then lp.map Char.toUpper else goTitle lp

/-- The `result[0]` lowercase-to-uppercase fix-up (lines 626-628). -/
def upperFirst : List Char → List Char
  | c :: rest => if c.isLower then c.toUpper :: rest else c :: rest
  | [] => []

/-- The final guard (lines 630-632): prefix `Field` when the result is
empty or begins with a digit. -/
def finalizeIdent : List Char → List Char
  | [] => "Field".data
  | c :: rest => if c.isDigit then "Field".data ++ c :: rest else c :: rest

/-- Character-level body of `convertToGoFieldName` (jrpc.go lines 559-635). -/
def convertChars (cs : List Char) (acr : AcrTable) : List Char :=
  if cs = [] then []
  else if cs = "_meta".data then "Meta".data
  else
    let n1 := cs.dropWhile isTrimChar
    if n1 = [] then "Field".data
    else
      finalizeIdent (upperFirst
        (((finalPartsOf (cleanedName n1)).map (mapPart acr)).flatten))

/-- `convertToGoFieldName` of `jrpc.go`. -/
def convertToGoFieldName (name : String) (acr : AcrTable) : String :=
  ⟨convertChars name.data acr⟩

/-! ### The common-prefix algorithm `findCommonPrefix` -/

/-- The inner shrink loop of `findCommonPrefix`, with the candidate prefix
carried reversed (`rp = pfx.reverse`) so that dropping the last character
of the prefix is structural: drop until `rp.reverse` is a prefix of
`str`; `none` models the early `return ""` taken when the candidate
becomes empty after a shrink (the `[]` arm never shrinks: the empty
prefix is a prefix of everything). -/
def shrinkToRev (str : List Char) : List Char → Option (List Char)
  | [] => some []
  | c :: rp' =>
    if ((c :: rp').reverse).isPrefixOf str then some ((c :: rp').reverse)
    else if rp' = [] then none
    else shrinkToRev str rp'

/-- Drop the last character of `pfx` until it is a prefix of `str`. -/
def shrinkTo (str pfx : List Char) : Option (List Char) :=
  shrinkToRev str pfx.reverse

/-- The outer loop of `findCommonPrefix` over `strs[1:]`. -/
def shrinkAll (pfx : List Char) : List (List Char) → Option (List Char)
  | [] => some pfx
  | s :: rest =>
    match shrinkTo s pfx with
    | none => none
    | some p' => shrinkAll p' rest

/-- `findCommonPrefix` of `jrpc.go` (lines 283-310). -/
def findCommonPrefix (strs : List String) : String :=
  match strs with
  | [] => ""
  | s0 :: rest =>
    match shrinkAll s0.data (rest.map String.data) with
    | none => ""
    | some p =>
      if p.length > 2 && p.getLast? = some '_' then ⟨p⟩
      else if strs.any (fun s => p.length < s.data.length &&
                                 s.data.getD p.length ' ' = '_') then
        ⟨p ++ ['_']⟩
      else ""

/-- The longest common prefix of two character lists (specification-side
definition of the "maximal shared literal prefix" of §4.4). -/
def lcp2 : List Char → List Char → List Char
  | a :: as, b :: bs => if a = b then a :: lcp2 as bs else []
  | _, _ => []

/-- Longest common prefix of a nonempty family, folded from the first. -/
def lcpOfStrs (strs : List String) : List Char :=
  match strs with
  | [] => []
  | s0 :: rest => (rest.map String.data).foldl lcp2 s0.data

/-! ### Enum handling helpers -/

/-- `strings.TrimSuffix(s, "_")`. -/
def trimUnderscoreSuffix (p : List Char) : List Char :=
  if p.getLast? = some '_' then p.dropLast else p

/-- `strings.HasPrefix` / `strings.TrimPrefix` pair used on enum values. -/
def hasPrefixChars (pre s : List Char) : Bool := pre.isPrefixOf s

def dropPrefixChars (pre s : List Char) : List Char :=
  if pre.isPrefixOf s then s.drop pre.length else s

/-! ### The parsed schema document

Go's `map[string]any` trees are modelled by `JValue`; an object carries
its fields as an association list whose order records one possible Go map
iteration order (Go map iteration order is unspecified).  Numbers are
collapsed to one constructor: no claim depends on numeric values, and
`determineGoType`'s enum-kind inference treats them as JSON `float64`. -/

inductive JValue where
  | null : JValue
  | bool : Bool → JValue
  | num : Int → JValue
  | str : String → JValue
  | arr : List JValue → JValue
  | obj : List (String × JValue) → JValue

abbrev JObj := List (String × JValue)

mutual

/-- Structural size of a schema tree, used as the recursion budget of the
fuel-based recursive functions below. -/
def jvalSize : JValue → Nat
  | .null | .bool _ | .num _ | .str _ => 1
  | .arr xs => 1 + jarrSize xs
  | .obj fs => 1 + jobjSize fs

def jarrSize : List JValue → Nat
  | [] => 0
  | v :: rest => 1 + jvalSize v + jarrSize rest

def jobjSize : List (String × JValue) → Nat
  | [] => 0
  | e :: rest => 1 + jvalSize e.2 + jobjSize rest

end

/-- Go map read `m[k]`: the value stored for `k` (keys of a Go map are
unique, so the first match is the match). -/
def lookupJ (fields : JObj) (k : String) : Option JValue :=
  match fields with
  | [] => none
  | (k', v) :: rest => if k' = k then some v else lookupJ rest k

/-- Key-presence test `_, ok := m[k]`. -/
def containsKeyJ (fields : JObj) (k : String) : Bool :=
  (lookupJ fields k).isSome

/-- Type assertion `.(string)`. -/
def asStr : Option JValue → Option String
  | some (.str s) => some s
  | _ => none

/-- Type assertion `.([]any)`. -/
def asArr : Option JValue → Option (List JValue)
  | some (.arr vs) => some vs
  | _ => none

/-- Type assertion `.(map[string]any)`. -/
def asObj : Option JValue → Option JObj
  | some (.obj f) => some f
  | _ => none

/-- Go map assignment `m[k] = v` on the association-list model: replaces
the stored value in place, or appends a new binding. -/
def upsert (m : List (String × α)) (k : String) (v : α) : List (String × α) :=
  match m with
  | [] => [(k, v)]
  | (k', v') :: rest => if k' = k then (k, v) :: rest else (k', v') :: upsert rest k v

/-- Association-list read used for generic tables. -/
def lookupA (m : List (String × α)) (k : String) : Option α :=
  match m with
  | [] => none
  | (k', v) :: rest => if k' = k then some v else lookupA rest k

def keysOf (m : List (String × α)) : List String := m.map Prod.fst

/-- Lexicographic comparison of character lists under `Char`'s scalar
order.  On UTF-8 encoded strings this coincides with Go's byte-wise
`s1 <= s2`, the order `sort.Strings` sorts by. -/
def charListLe : List Char → List Char → Bool
  | [], _ => true
  | _ :: _, [] => false
  | a :: as, b :: bs => if a < b then true else if b < a then false else charListLe as bs

/-- Go's `s1 <= s2` on strings. -/
def strLe (a b : String) : Prop := charListLe a.data b.data = true

instance : DecidableRel strLe := fun a b =>
  inferInstanceAs (Decidable (charListLe a.data b.data = true))

/-- `sort.Strings`, modelled by insertion sort under Go's string order. -/
def sortStrings (l : List String) : List String :=
  l.insertionSort strLe

theorem jvalSize_lookupJ {fields : JObj} {k : String} {v : JValue}
    (h : lookupJ fields k = some v) : jvalSize v < jobjSize fields := by
  induction fields with
  | nil => simp [lookupJ] at h
  | cons e rest ih =>
    obtain ⟨k', v'⟩ := e
    by_cases hk : k' = k
    · simp [lookupJ, hk] at h
      subst h
      simp [jobjSize]
      omega
    · simp [lookupJ, hk] at h
      have := ih h
      simp [jobjSize]
      omega

theorem asObj_eq_some {o : Option JValue} {f : JObj} (h : asObj o = some f) :
    o = some (.obj f) := by
  match o with
  | some (.obj g) => simp [asObj] at h; simp [h]
  | none | some .null | some (.bool _) | some (.num _) | some (.str _)
  | some (.arr _) => simp [asObj] at h

/-! ### The type resolver `determineGoType` -/

/-- The tail of `determineGoType` reached when no `$ref` is present and
the `type` switch matched no recognised primitive (jrpc.go lines
727-760): union placeholders, `const`, enum-kind inference, fallback.
A `num` enum value is reported as `float64`, the runtime kind JSON
parsing gives every number. -/
def determineGoTypeFallback (propMap : JObj) : String :=
  if !((asArr (lookupJ propMap "oneOf")).getD []).isEmpty then "any"
  else if !((asArr (lookupJ propMap "anyOf")).getD []).isEmpty then "any"
  else if !((asArr (lookupJ propMap "allOf")).getD []).isEmpty then "any"
  else if containsKeyJ propMap "const" then "any"
  else
    match asArr (lookupJ propMap "enum") with
    | some enum =>
      if !enum.isEmpty then
        match enum.find? (fun v => match v with
          | .str _ | .num _ | .bool _ => true
          | _ => false) with
        | some (.str _) => "string"
        | some (.num _) => "float64"
        | some (.bool _) => "bool"
        | _ => "any"
      else "any"
    | none => "any"

/-- The format-refinement table for `type: "string"`. -/
def stringFormatType (format : String) : String :=
  if format = "date-time" || format = "date" || format = "time" then "time.Time"
  else if format = "email" || format = "hostname" || format = "ipv4" ||
          format = "ipv6" || format = "uri" || format = "uuid" then "string"
  else if format = "byte" || format = "binary" then "[]byte"
  else "string"

/-- `determineGoType` of `jrpc.go` (lines 638-761), with an explicit
recursion budget so that the definition is structurally recursive and
kernel-computable.  The budget strictly exceeds the recursion depth
whenever `jobjSize propMap ≤ fuel` (each recursive argument is a strict
subterm, see `jvalSize_lookupJ`), so the out-of-fuel arm
is dead code.  The `definitions` argument is threaded exactly as in the
source, where it is only ever passed on recursively and never read. -/
def determineGoTypeF : Nat → JObj → JObj → String
  | 0, _, _ => "any"
  | fuel+1, propMap, definitions =>
    match asStr (lookupJ propMap "$ref") with
    | some ref => (⟨(splitOnChar '/' ref.data).getLastD []⟩ : String)
    | none =>
      match asStr (lookupJ propMap "type") with
      | some ty =>
        if ty = "array" then
          match asObj (lookupJ propMap "items") with
          | some items => "[]" ++ determineGoTypeF fuel items definitions
          | none => "[]any"
        else
          let format := (asStr (lookupJ propMap "format")).getD ""
          if ty = "string" then stringFormatType format
          else if ty = "integer" then
            if format = "int32" then "int32"
            else if format = "int64" then "int64" else "int"
          else if ty = "number" then
            if format = "float" then "float32"
            else if format = "double" then "float64" else "float64"
          else if ty = "boolean" then "bool"
          else if ty = "object" then
            match lookupJ propMap "additionalProperties" with
            | some (.obj ap) => "map[string]" ++ determineGoTypeF fuel ap definitions
            | some (.bool true) => "map[string]any"
            | _ => "map[string]any"
          else if ty = "null" then "any"
          else determineGoTypeFallback propMap
      | none => determineGoTypeFallback propMap

def determineGoType (propMap definitions : JObj) : String :=
  determineGoTypeF (jobjSize propMap) propMap definitions

/-! ### `containsTimeType` -/

theorem asArr_eq_some {o : Option JValue} {l : List JValue} (h : asArr o = some l) :
    o = some (.arr l) := by
  match o with
  | some (.arr g) => simp [asArr] at h; simp [h]
  | none | some .null | some (.bool _) | some (.num _) | some (.str _)
  | some (.obj _) => simp [asArr] at h

mutual

/-- `containsTimeType` of `jrpc.go` (lines 839-876), with an explicit
recursion budget making the mutual recursion structural and
kernel-computable; `jobjSize` bounds the recursion depth (see
`jvalSize_lookupJ`), so the out-of-fuel arms are dead code. -/
def containsTimeTypeF : Nat → JObj → Bool
  | 0, _ => false
  | fuel+1, defMap =>
    (match asStr (lookupJ defMap "format") with
     | some f => f = "date-time" || f = "date" || f = "time"
     | none => false) ||
    (match asObj (lookupJ defMap "properties") with
     | some props => containsTimePropsF fuel props
     | none => false) ||
    (match asObj (lookupJ defMap "items") with
     | some items => containsTimeTypeF fuel items
     | none => false) ||
    (match asArr (lookupJ defMap "anyOf") with
     | some schemas => containsTimeElemsF fuel schemas
     | none => false) ||
    (match asArr (lookupJ defMap "oneOf") with
     | some schemas => containsTimeElemsF fuel schemas
     | none => false) ||
    (match asArr (lookupJ defMap "allOf") with
     | some schemas => containsTimeElemsF fuel schemas
     | none => false)

/-- Iteration over a `properties` map: object-shaped values recursed into. -/
def containsTimePropsF : Nat → JObj → Bool
  | 0, _ => false
  | _+1, [] => false
  | fuel+1, (_, .obj pm) :: rest =>
    containsTimeTypeF fuel pm || containsTimePropsF fuel rest
  | fuel+1, _ :: rest => containsTimePropsF fuel rest

/-- Iteration over an `anyOf`/`oneOf`/`allOf` array. -/
def containsTimeElemsF : Nat → List JValue → Bool
  | 0, _ => false
  | _+1, [] => false
  | fuel+1, .obj sm :: rest =>
    containsTimeTypeF fuel sm || containsTimeElemsF fuel rest
  | fuel+1, _ :: rest => containsTimeElemsF fuel rest

end

def containsTimeType (defMap : JObj) : Bool :=
  containsTimeTypeF (jobjSize defMap) defMap

/-! ### Enum-name derivation and the inline enum discoverer -/

/-- The string-typed members of an `enum` array, in order. -/
def enumStringsOf (enumValues : List JValue) : List String :=
  enumValues.filterMap fun v => match v with | .str s => some s | _ => none

/-- `deriveEnumTypeName` of `jrpc.go` (lines 257-279). -/
def deriveEnumTypeName (enumValues : List JValue) (propName : String)
    (acr : AcrTable) : String :=
  let stringValues := enumStringsOf enumValues
  if stringValues = [] then convertToGoFieldName propName acr
  else
    let commonPrefix := findCommonPrefix stringValues
    if commonPrefix ≠ "" then
      let trimmed : String := ⟨trimUnderscoreSuffix commonPrefix.data⟩
      let typeName := convertToGoFieldName trimmed acr
      if typeName ≠ "" && typeName ≠ "Field" then typeName
      else convertToGoFieldName propName acr
    else convertToGoFieldName propName acr

/-- `inlineEnumDef` of `jrpc.go`. -/
structure InlineEnumDef where
  values : List JValue
  typeInfo : JObj

/-- The inline-enum record a single property contributes, if any: present
exactly when the property is object-shaped and carries a nonempty `enum`
array.  The stored `typeInfo` is the map literal
`{"description": propMap["description"], "type": "string"}` (a missing
description is Go's `nil`, modelled by `JValue.null`). -/
def inlineEnumEntryOfProp (acr : AcrTable) (propName : String)
    (propVal : JValue) : Option (String × InlineEnumDef) :=
  match propVal with
  | .obj pm =>
    match asArr (lookupJ pm "enum") with
    | some enumValues =>
      if !enumValues.isEmpty then
        some (deriveEnumTypeName enumValues propName acr,
              ⟨enumValues,
               [("description", (lookupJ pm "description").getD .null),
                ("type", .str "string")]⟩)
      else none
    | none => none
  | _ => none

/-- The records contributed by one definition, in property-iteration order. -/
def enumEntriesOfDef (acr : AcrTable) (defVal : JValue) :
    List (String × InlineEnumDef) :=
  match defVal with
  | .obj dm =>
    match asObj (lookupJ dm "properties") with
    | some props => props.filterMap fun p => inlineEnumEntryOfProp acr p.1 p.2
    | none => []
  | _ => []

/-- All records contributed by a definition list, in iteration order. -/
def allEnumEntries (acr : AcrTable) (defs : List (String × JValue)) :
    List (String × InlineEnumDef) :=
  defs.flatMap fun d => enumEntriesOfDef acr d.2

/-- `extractInlineEnums` of `jrpc.go` (lines 217-252): the nested loops
visit each definition and each of its properties in iteration order and
perform `inlineEnums[name] = record` for every qualifying property —
i.e. they fold `upsert` over the flattened entry list. -/
def extractInlineEnums (definitions : List (String × JValue))
    (acr : AcrTable) : List (String × InlineEnumDef) :=
  (allEnumEntries acr definitions).foldl (fun m e => upsert m e.1 e.2) []

/-! ### The definition collector `extractDefinitions` -/

/-- Insert every key/value pair of a container (when it is map-shaped)
into the accumulated definitions, later writes overwriting earlier ones. -/
def insertAllJ (m : List (String × JValue)) (entries : Option JObj) :
    List (String × JValue) :=
  match entries with
  | some es => es.foldl (fun acc e => upsert acc e.1 e.2) m
  | none => m

/-- `extractDefinitions` of `jrpc.go` (lines 313-356).  The source checks
`components.schemas` twice (two successive `if` blocks, lines 328-334
and 336-341); the duplication is reproduced. -/
def extractDefinitions (schema : JObj) : List (String × JValue) :=
  let comps := asObj (lookupJ schema "components")
  let d1 := insertAllJ [] (asObj (lookupJ schema "definitions"))
  let d2 := insertAllJ d1 (asObj (lookupJ schema "$defs"))
  let d3 := insertAllJ d2 (comps.bind fun c => asObj (lookupJ c "schemas"))
  let d4 := insertAllJ d3 (comps.bind fun c => asObj (lookupJ c "schemas"))
  let d5 := insertAllJ d4 (comps.bind fun c => asObj (lookupJ c "contentDescriptors"))
  insertAllJ d5 (asObj (lookupJ schema "schemas"))

/-! ### Generator options -/

/-- `GeneratorOptions` of `jrpc.go`; the custom acronym map is carried as
an association list (its Go map iteration order is irrelevant: it is only
written into the merged table keyed by name). -/
structure GeneratorOptions where
  packageName : String
  customAcronyms : List (String × Bool)
  includeComments : Bool
  formatOutput : Bool

/-- The `options == nil` and empty-package-name defaulting of
`GenerateTypes` (lines 56-66). -/
def normalizeOptions : Option GeneratorOptions → GeneratorOptions
  | none => ⟨"types", [], true, true⟩
  | some o => if o.packageName = "" then { o with packageName := "types" } else o

/-- The merged acronym table: defaults overwritten by the caller-supplied
entries (lines 68-71). -/
def mergedAcr (o : GeneratorOptions) : AcrTable := fun k =>
  match lookupA o.customAcronyms k with
  | some v => v
  | none => defaultAcr k

/-- Options used when `GenerateTypes` is called with `options == nil`. -/
def defaultOptions : GeneratorOptions := ⟨"types", [], true, true⟩

/-! ### The emitter -/

/-- ASCII model of the `unicode.IsSpace` predicate used by
`strings.TrimSpace`. -/
def isSpaceChar (c : Char) : Bool :=
  c = ' ' || c = '\t' || c = '\n' || c = '\x0b' || c = '\x0c' || c = '\r'

def trimSpace (s : String) : String :=
  ⟨((s.data.dropWhile isSpaceChar).reverse.dropWhile isSpaceChar).reverse⟩

/-- `formatDescription` of `jrpc.go` (lines 540-556). -/
def formatDescription (description : String) : String :=
  if description = "" then ""
  else
    let lines := (splitOnChar '\n' description.data).map fun l => (⟨l⟩ : String)
    let lines := lines.map fun line =>
      let t := trimSpace line
      if t ≠ "" then "// " ++ t else "//"
    String.intercalate "\n" lines

/-- `hasDefaultValue` of `jrpc.go`. -/
def hasDefaultValue (propMap : JObj) : Bool := containsKeyJ propMap "default"

/-- The description comment chunk shared by the enum and complex
generators. -/
def descriptionChunks (defMap : JObj) (opts : GeneratorOptions) : List String :=
  let description := (asStr (lookupJ defMap "description")).getD ""
  if description ≠ "" && opts.includeComments then
    [formatDescription description ++ "\n"]
  else []

/-- The constant identifier emitted for one enum value: the per-enum
rediscovered common prefix (already `_`-trimmed) is stripped when the
value continues it with `_`, and the remainder is synthesized. -/
def enumConstName (typeName : String) (cp : List Char) (v : String)
    (acr : AcrTable) : String :=
  let constName : String :=
    if !cp.isEmpty && hasPrefixChars (cp ++ ['_']) v.data then
      ⟨v.data.drop (cp.length + 1)⟩
    else v
  typeName ++ convertToGoFieldName constName acr

def enumConstLine (typeName : String) (cp : List Char) (v : String)
    (acr : AcrTable) : String :=
  "\t" ++ enumConstName typeName cp v acr ++ " " ++ typeName ++
    " = \"" ++ v ++ "\"\n"

/-- `generateEnumType` of `jrpc.go` (lines 359-417) as the list of
`WriteString` arguments it produces. -/
def generateEnumTypeChunks (typeName : String) (defMap : JObj)
    (enumValues : List JValue) (acr : AcrTable) (opts : GeneratorOptions) :
    List String :=
  let typeStr := (asStr (lookupJ defMap "type")).getD "string"
  let typeDecl := "type " ++ typeName ++ " " ++ typeStr ++ "\n\n"
  let constHeader := "// " ++ typeName ++ " enum values\nconst (\n"
  let enumStrings := sortStrings (enumStringsOf enumValues)
  let cp0 := findCommonPrefix enumStrings
  let cp := if cp0 ≠ "" then trimUnderscoreSuffix cp0.data else cp0.data
  descriptionChunks defMap opts ++ [typeDecl, constHeader] ++
    enumStrings.map (fun v => enumConstLine typeName cp v acr) ++ [")\n\n"]

/-- The membership test built from the fragment's `required` array. -/
def requiredSetOf (defMap : JObj) (name : String) : Bool :=
  match asArr (lookupJ defMap "required") with
  | some fields => fields.any fun f => match f with
      | .str s => s = name
      | _ => false
  | none => false

/-- The optionality wrapper of `generateComplexType` (lines 506-510). -/
def structFieldType (required hasDefault : Bool) (propType : String) : String :=
  if !required && !hasDefault &&
     !(hasPrefixChars "*".data propType.data ||
       hasPrefixChars "[]".data propType.data ||
       hasPrefixChars "map[".data propType.data) then
    "*" ++ propType
  else propType

/-- The resolved type of one property (lines 499-504): an inline enum's
derived name when the property carries a nonempty `enum` array, the type
resolver's answer otherwise. -/
def resolvedPropType (pm : JObj) (propName : String) (definitions : JObj)
    (acr : AcrTable) : String :=
  match asArr (lookupJ pm "enum") with
  | some vs => if !vs.isEmpty then deriveEnumTypeName vs propName acr
               else determineGoType pm definitions
  | none => determineGoType pm definitions

/-- One rendered struct field line (lines 490-521). -/
def structFieldLine (defMap pm : JObj) (propName : String)
    (definitions : JObj) (acr : AcrTable) : String :=
  let fieldName := convertToGoFieldName propName acr
  let required := requiredSetOf defMap propName
  let propType := structFieldType required (hasDefaultValue pm)
    (resolvedPropType pm propName definitions acr)
  let jsonTag := "`json:\"" ++ propName ++
    (if !required then ",omitempty" else "") ++ "\"`"
  "\t" ++ fieldName ++ " " ++ propType ++ " " ++ jsonTag ++ "\n"

/-- All field lines of a struct: property names sorted, non-object
property fragments skipped. -/
def structFieldLines (defMap : JObj) (definitions : JObj) (acr : AcrTable) :
    List String :=
  match asObj (lookupJ defMap "properties") with
  | some props =>
    (sortStrings (keysOf props)).filterMap fun pn =>
      match asObj (lookupJ props pn) with
      | some pm => some (structFieldLine defMap pm pn definitions acr)
      | none => none
  | none => []

/-- `generateComplexType` of `jrpc.go` (lines 420-530) as its chunk list. -/
def generateComplexTypeChunks (typeName : String) (defMap : JObj)
    (definitions : JObj) (acr : AcrTable) (opts : GeneratorOptions) :
    List String :=
  descriptionChunks defMap opts ++
  (if (asStr (lookupJ defMap "type")).isSome && !containsKeyJ defMap "properties" then
    ["type " ++ typeName ++ " = " ++ determineGoType defMap definitions ++ "\n\n"]
  else if containsKeyJ defMap "anyOf" then
    ["type " ++ typeName ++ " any\n\n"]
  else if containsKeyJ defMap "oneOf" then
    ["type " ++ typeName ++ " any\n\n"]
  else if containsKeyJ defMap "allOf" then
    ["type " ++ typeName ++ " any\n\n"]
  else
    ["type " ++ typeName ++ " struct \x7b\n"] ++
      structFieldLines defMap definitions acr ++ ["\x7d\n\n"])

/-- A top-level definition's nonempty `enum` array, when it has one. -/
def topLevelEnumValues (dm : JObj) : Option (List JValue) :=
  match asArr (lookupJ dm "enum") with
  | some vs => if !vs.isEmpty then some vs else none
  | none => none

/-- The header written first: banner, package clause, and the `time`
package import exactly when some collected definition transitively
carries a date/time format. -/
def headerChunk (definitions : List (String × JValue)) (opts : GeneratorOptions) :
    String :=
  let needsTime := definitions.any fun d =>
    match d.2 with | .obj dm => containsTimeType dm | _ => false
  "// Code generated from JSON schema. DO NOT EDIT.\npackage " ++
    opts.packageName ++ "\n\n" ++
    (if needsTime then "import \"time\"\n\n" else "")

/-- The inline-enum section: records emitted in sorted name order. -/
def inlineChunksOf (inl : List (String × InlineEnumDef)) (acr : AcrTable)
    (opts : GeneratorOptions) : List String :=
  (sortStrings (keysOf inl)).flatMap fun n =>
    match lookupA inl n with
    | some d => generateEnumTypeChunks n d.typeInfo d.values acr opts
    | none => []

/-- The top-level-enum section: definitions with a nonempty `enum`,
emitted in sorted name order. -/
def enumDefChunksOf (definitions : List (String × JValue)) (acr : AcrTable)
    (opts : GeneratorOptions) : List String :=
  (sortStrings (keysOf definitions)).flatMap fun n =>
    match asObj (lookupA definitions n) with
    | some dm =>
      match topLevelEnumValues dm with
      | some vs => generateEnumTypeChunks n dm vs acr opts
      | none => []
    | none => []

/-- The `processedTypes` test at the start of the complex pass: inline
enum names and top-level enum names. -/
def processedOf (inlineNames : List String) (definitions : List (String × JValue))
    (n : String) : Bool :=
  inlineNames.contains n ||
  (match asObj (lookupA definitions n) with
   | some dm => (topLevelEnumValues dm).isSome
   | none => false)

/-- The complex-type section: remaining object-shaped definitions in
sorted name order, skipping processed names. -/
def complexChunksOf (inlineNames : List String)
    (definitions : List (String × JValue)) (acr : AcrTable)
    (opts : GeneratorOptions) : List String :=
  (sortStrings (keysOf definitions)).flatMap fun n =>
    match asObj (lookupA definitions n) with
    | some dm =>
      if processedOf inlineNames definitions n then []
      else generateComplexTypeChunks n dm definitions acr opts
    | none => []

/-- The generation pass of `GenerateTypes` after the definitions have been
collected (lines 107-197), as the ordered list of `WriteString`
arguments: header, inline enums (sorted), top-level enum definitions
(sorted), remaining definitions (sorted, skipping names already emitted
as an inline enum or a top-level enum). -/
def generateFromDefs (definitions : List (String × JValue))
    (opts : GeneratorOptions) : List String :=
  let acr := mergedAcr opts
  let inlineEnums := extractInlineEnums definitions acr
  [headerChunk definitions opts] ++
    inlineChunksOf inlineEnums acr opts ++
    enumDefChunksOf definitions acr opts ++
    complexChunksOf (sortStrings (keysOf inlineEnums)) definitions acr opts

/-- The full text written to the destination file. -/
def generatedContent (definitions : List (String × JValue))
    (opts : GeneratorOptions) : String :=
  String.join (generateFromDefs definitions opts)

/-! ### The end-to-end run and the validation entry point

File reading and JSON/YAML parsing are external collaborators: a run is
parameterised by a read function and the two parsers.  `errBeforeCreate`
records an error returned before `os.Create(destination)` — on these
paths the destination is untouched.  `WriteString`/`Close` failures and
the best-effort `go fmt` invocation are outside the model. -/

inductive GenErr where
  | readFail : GenErr
  | parseJSONFail : GenErr
  | parseYAMLFail : GenErr
  | unsupportedFormat : GenErr
  | emptySchema : GenErr
deriving DecidableEq

inductive GenResult where
  | errBeforeCreate : GenErr → GenResult
  | written : String → GenResult
deriving DecidableEq

/-- `strings.HasSuffix`. -/
def goHasSuffix (s suffix : String) : Bool := suffix.data.isSuffixOf s.data

/-- `GenerateTypes` from the parse onward (lines 92-206): the emptiness
check precedes `os.Create`. -/
def generateAfterParse (schema : JObj) (opts : GeneratorOptions) : GenResult :=
  let definitions := extractDefinitions schema
  if definitions.length = 0 then .errBeforeCreate .emptySchema
  else .written (generatedContent definitions opts)

/-- `GenerateTypes` of `jrpc.go` (lines 55-207). -/
def generateTypesRun (readFile : String → Option String)
    (parseJSON parseYAML : String → Option JObj)
    (schemaPath : String) (options : Option GeneratorOptions) : GenResult :=
  let opts := normalizeOptions options
  match readFile schemaPath with
  | none => .errBeforeCreate .readFail
  | some data =>
    if goHasSuffix schemaPath ".json" then
      match parseJSON data with
      | none => .errBeforeCreate .parseJSONFail
      | some schema => generateAfterParse schema opts
    else if goHasSuffix schemaPath ".yaml" || goHasSuffix schemaPath ".yml" then
      match parseYAML data with
      | none => .errBeforeCreate .parseYAMLFail
      | some schema => generateAfterParse schema opts
    else .errBeforeCreate .unsupportedFormat

/-- `ValidateSchema` of `jrpc.go` (lines 809-836), a separate copy of the
read/dispatch/parse/emptiness pipeline (its parse-error message texts
differ from `GenerateTypes`'s; the error kinds coincide). -/
def validateSchema (readFile : String → Option String)
    (parseJSON parseYAML : String → Option JObj)
    (schemaPath : String) : Except GenErr Unit :=
  match readFile schemaPath with
  | none => .error .readFail
  | some data =>
    if goHasSuffix schemaPath ".json" then
      match parseJSON data with
      | none => .error .parseJSONFail
      | some schema =>
        if (extractDefinitions schema).length = 0 then .error .emptySchema
        else .ok ()
    else if goHasSuffix schemaPath ".yaml" || goHasSuffix schemaPath ".yml" then
      match parseYAML data with
      | none => .error .parseYAMLFail
      | some schema =>
        if (extractDefinitions schema).length = 0 then .error .emptySchema
        else .ok ()
    else .error .unsupportedFormat

/-- `strings.Contains(s, sub)` at character level. -/
def containsChars (sub : List Char) : List Char → Bool
  | [] => sub.isEmpty
  | c :: rest => sub.isPrefixOf (c :: rest) || containsChars sub rest

/-- `true` when the first character of `s` is an ASCII digit. -/
def startsWithDigit (s : String) : Bool :=
  match s.data with
  | c :: _ => c.isDigit
  | [] => false

/-- `true` on `.str` values: the `val.(string)` type-assertion test. -/
def JValue.isStr : JValue → Bool
  | .str _ => true
  | _ => false

def exceptIsOk : Except GenErr Unit → Bool
  | .ok _ => true
  | .error _ => false

/-- `true` exactly when the run got past every pre-generation check and
wrote the output file. -/
def GenResult.isWritten : GenResult → Bool
  | .written _ => true
  | .errBeforeCreate _ => false

/-! ### Concrete schema inputs used by the counterexamples -/

/-- Definition `A`: a struct whose property `status` carries the inline
enum `["X","Y"]`. -/
def defnA : String × JValue :=
  ("A", .obj [("type", .str "object"),
              ("properties", .obj [("status", .obj [("enum", .arr [.str "X", .str "Y"])])])])

/-- Definition `B`: a struct whose property `status` carries the inline
enum `["P","Q"]` — the same derived name `Status`, a different value set. -/
def defnB : String × JValue :=
  ("B", .obj [("type", .str "object"),
              ("properties", .obj [("status", .obj [("enum", .arr [.str "P", .str "Q"])])])])

/-- A struct definition named `Level` next to a definition whose property
`level` carries an inline enum that derives the same name `Level`. -/
def levelClashDefs : List (String × JValue) :=
  [("Level", .obj [("type", .str "object"),
                   ("properties", .obj [("x", .obj [("type", .str "string")])])]),
   ("Widget", .obj [("type", .str "object"),
                    ("properties", .obj [("level", .obj [("enum", .arr [.str "A", .str "B"])])])])]

/-- The `Status` enum definition set of §8 of the specification. -/
def statusDefs : List (String × JValue) :=
  [("Status", .obj [("type", .str "string"),
                    ("enum", .arr [.str "ACTIVE", .str "INACTIVE"])])]

/-- A fragment whose only property resolves through `$ref` to a
`*`-prefixed type name. -/
def starRefDef : JObj :=
  [("properties", .obj [("b", .obj [("$ref", .str "*b")])])]

/-! ## Claim theorems -/

/-- C1, counterexample.  The claim asserts the emitted output is
independent of the iteration order over the definitions map even when two
properties derive the same inline-enum name.  It is false: `defnA` and
`defnB` both derive the inline enum name `Status` with different value
sets; the two iteration orders of the same two-entry definitions map
(permutations of each other, with distinct keys) produce different
outputs, because the coalesced record is whichever was written last. -/
theorem c1_counterexample_order_dependent :
    [defnA, defnB].Perm [defnB, defnA] ∧
    (keysOf [defnA, defnB]).Nodup ∧
    generateFromDefs [defnA, defnB] defaultOptions ≠
      generateFromDefs [defnB, defnA] defaultOptions :=
  ⟨List.Perm.swap _ _ _, by decide, by decide⟩

/-- C2.  The code contradicts the claim: `extractInlineEnums` synthesizes
the inline enum `Level` although a top-level definition named `Level`
exists, and the generation pass then silently drops the collected `Level`
struct definition from the output (its name is marked processed by the
inline enum, so the complex-type pass skips it): the output contains the
inline `type Level string` and `type Widget struct`, but no
`type Level struct`. -/
theorem c2_level_definition_silently_dropped :
    keysOf (extractInlineEnums levelClashDefs (mergedAcr defaultOptions)) = ["Level"] ∧
    keysOf levelClashDefs = ["Level", "Widget"] ∧
    "type Level string\n\n" ∈ generateFromDefs levelClashDefs defaultOptions ∧
    "type Level struct \x7b\n" ∉ generateFromDefs levelClashDefs defaultOptions ∧
    "type Widget struct \x7b\n" ∈ generateFromDefs levelClashDefs defaultOptions := by
  decide

/-- C3, counterexample.  The claim names the two emitted constants
`StatusACTIVE` and `StatusINACTIVE`; neither string occurs anywhere in
the generated output (the identifier synthesizer title-cases the value,
yielding `StatusActive` and `StatusInactive`). -/
theorem c3_counterexample_constant_names :
    ((generateFromDefs statusDefs defaultOptions).all
      fun c => !(containsChars "StatusACTIVE".data c.data)) = true ∧
    ((generateFromDefs statusDefs defaultOptions).all
      fun c => !(containsChars "StatusINACTIVE".data c.data)) = true ∧
    enumConstName "Status" [] "ACTIVE" defaultAcr = "StatusActive" := by
  decide

/-- C3, amended.  For the definition set
`{"Status": {"type":"string","enum":["ACTIVE","INACTIVE"]}}` generation
emits an enum type `Status` whose two constants are named `StatusActive`
and `StatusInactive` (the value title-cased by the identifier
synthesizer), emitted in lexicographic order of the original values
(`ACTIVE` before `INACTIVE`), each declared of type `Status` with literal
value equal to the original enum string. -/
theorem c3_amended_status_enum_output :
    generateFromDefs statusDefs defaultOptions =
      ["// Code generated from JSON schema. DO NOT EDIT.\npackage types\n\n",
       "type Status string\n\n",
       "// Status enum values\nconst (\n",
       "\tStatusActive Status = \"ACTIVE\"\n",
       "\tStatusInactive Status = \"INACTIVE\"\n",
       ")\n\n"] := by
  decide

/-- C4, counterexample.  The claim allows only sequence (`[]...`) and map
(`map[...]`) shapes to escape the optional wrapper, but the code also
leaves an already-`*`-prefixed resolved type unwrapped, and such a type
is reachable: a `$ref` whose final path segment is `*b` resolves to
`*b`, which is neither a sequence nor a map shape, is not required and
has no default, and yet is emitted as `*b`, not `**b`. -/
theorem c4_counterexample_star_ref :
    requiredSetOf starRefDef "b" = false ∧
    hasDefaultValue [("$ref", JValue.str "*b")] = false ∧
    resolvedPropType [("$ref", JValue.str "*b")] "b" [] defaultAcr = "*b" ∧
    hasPrefixChars "[]".data "*b".data = false ∧
    hasPrefixChars "map[".data "*b".data = false ∧
    structFieldType false false "*b" = "*b" ∧
    "*b" ≠ "*" ++ "*b" ∧
    generateComplexTypeChunks "T" starRefDef [] defaultAcr defaultOptions =
      ["type T struct \x7b\n", "\tB *b `json:\"b,omitempty\"`\n", "\x7d\n\n"] := by
  decide

/-- C5, counterexample.  The claim quantifies over every input string,
but on the empty input the identifier synthesizer returns the empty
string. -/
theorem c5_counterexample_empty_input :
    convertToGoFieldName "" defaultAcr = "" := by
  decide

/-- C6, counterexample.  The claim requires the maximal shared literal
prefix to be longer than 2 characters whenever a non-empty prefix is
accepted; `["a","a_x"]` has maximal shared prefix `"a"` of length 1, yet
`findCommonPrefix` accepts and returns `"a_"` (the `len > 2` check
guards only the ends-in-`_` branch of the code). -/
theorem c6_counterexample_short_prefix_accepted :
    findCommonPrefix ["a", "a_x"] = "a_" ∧
    findCommonPrefix ["a", "a_x"] ≠ "" ∧
    (lcpOfStrs ["a", "a_x"]).length = 1 := by
  decide

/-- C8, counterexample.  The identifier synthesizer is not idempotent:
`toIdentifier("id_a") = "IDA"` (acronym part `ID` followed by part `A`),
but re-applying it reads `IDA` as one word and title-cases it to
`"Ida"`. -/
theorem c8_counterexample_not_idempotent :
    convertToGoFieldName "id_a" defaultAcr = "IDA" ∧
    convertToGoFieldName (convertToGoFieldName "id_a" defaultAcr) defaultAcr = "Ida" ∧
    convertToGoFieldName (convertToGoFieldName "id_a" defaultAcr) defaultAcr ≠
      convertToGoFieldName "id_a" defaultAcr := by
  decide

/-- C7.  When the collected definition mapping is empty, the run fails
with the empty-schema error before `os.Create`, so no output file is
created or written: for every read function, parsers, paths and options,
if the file is read and parsed (under either suffix dispatch) into a
schema whose collection is empty, the result is
`errBeforeCreate emptySchema`. -/
theorem c7_empty_schema_fails_before_create
    (readFile : String → Option String)
    (parseJSON parseYAML : String → Option JObj)
    (schemaPath : String) (options : Option GeneratorOptions)
    (data : String) (schema : JObj)
    (hread : readFile schemaPath = some data)
    (hparse : (goHasSuffix schemaPath ".json" = true ∧ parseJSON data = some schema) ∨
              (goHasSuffix schemaPath ".json" = false ∧
               (goHasSuffix schemaPath ".yaml" || goHasSuffix schemaPath ".yml") = true ∧
               parseYAML data = some schema))
    (hempty : extractDefinitions schema = []) :
    generateTypesRun readFile parseJSON parseYAML schemaPath options =
      .errBeforeCreate .emptySchema := by
  rcases hparse with ⟨hjson, hp⟩ | ⟨hnjson, hyaml, hp⟩
  · simp [generateTypesRun, hread, hjson, hp, generateAfterParse, hempty]
  · simp [generateTypesRun, hread, hnjson, hyaml, hp, generateAfterParse, hempty]

/-- Witness for C7 at a concrete input: a JSON schema parsing to an
object with no definition container. -/
theorem c7_witness :
    generateTypesRun (fun _ => some "\x7b\"title\":\"t\"\x7d")
      (fun _ => some [("title", .str "t")]) (fun _ => none)
      "schema.json" none = .errBeforeCreate .emptySchema :=
  c7_empty_schema_fails_before_create _ _ _ _ _ _ _ rfl
    (Or.inl ⟨by decide, rfl⟩) rfl

/-- C9.  The standalone validation entry point succeeds exactly when a
generation run on the same path (any destination contents aside, for
every options value) gets past its pre-generation checks — reading,
suffix dispatch, parsing and the non-emptiness of the collected
definition mapping — and reaches the write phase; `ValidateSchema`
performs no other checks and produces no output (it is a pure check in
the model). -/
theorem c9_validate_iff_pregeneration_checks
    (readFile : String → Option String)
    (parseJSON parseYAML : String → Option JObj)
    (schemaPath : String) (options : Option GeneratorOptions) :
    exceptIsOk (validateSchema readFile parseJSON parseYAML schemaPath) =
      (generateTypesRun readFile parseJSON parseYAML schemaPath options).isWritten := by
  cases hr : readFile schemaPath with
  | none => simp [validateSchema, generateTypesRun, hr, exceptIsOk, GenResult.isWritten]
  | some data =>
    by_cases hj : goHasSuffix schemaPath ".json" = true
    · cases hp : parseJSON data with
      | none =>
        simp [validateSchema, generateTypesRun, hr, hj, hp, exceptIsOk,
          GenResult.isWritten]
      | some schema =>
        by_cases he : (extractDefinitions schema).length = 0 <;>
          simp [validateSchema, generateTypesRun, hr, hj, hp, he,
            generateAfterParse, exceptIsOk, GenResult.isWritten]
    · by_cases hy : (goHasSuffix schemaPath ".yaml" || goHasSuffix schemaPath ".yml") = true
      · cases hp : parseYAML data with
        | none =>
          simp [validateSchema, generateTypesRun, hr, hj, hy, hp, exceptIsOk,
            GenResult.isWritten]
        | some schema =>
          by_cases he : (extractDefinitions schema).length = 0 <;>
            simp [validateSchema, generateTypesRun, hr, hj, hy, hp, he,
              generateAfterParse, exceptIsOk, GenResult.isWritten]
      · simp [validateSchema, generateTypesRun, hr, hj, hy, exceptIsOk,
          GenResult.isWritten]

/-- C10.  A property whose `enum` array is nonempty but contains no
string-typed value still yields an inline enum record: its name is
synthesized from the property name (no prefix derivation), the stored
fragment declares underlying type `string` unconditionally, and the
emitted declaration contains zero constants (only the `type` line, the
`const (` header and the closing parenthesis). -/
theorem c10_nonstring_inline_enum
    (vals : List JValue) (pn dn : String) (acr : AcrTable)
    (opts : GeneratorOptions)
    (hne : vals ≠ [])
    (hns : ∀ v ∈ vals, v.isStr = false) :
    deriveEnumTypeName vals pn acr = convertToGoFieldName pn acr ∧
    extractInlineEnums
        [(dn, .obj [("properties", .obj [(pn, .obj [("enum", .arr vals)])])])] acr =
      [(convertToGoFieldName pn acr,
        ⟨vals, [("description", .null), ("type", .str "string")]⟩)] ∧
    generateEnumTypeChunks (convertToGoFieldName pn acr)
        [("description", .null), ("type", .str "string")] vals acr opts =
      ["type " ++ convertToGoFieldName pn acr ++ " " ++ "string" ++ "\n\n",
       "// " ++ convertToGoFieldName pn acr ++ " enum values\nconst (\n",
       ")\n\n"] := by
  have hstr : enumStringsOf vals = [] := by
    rw [enumStringsOf, List.filterMap_eq_nil_iff]
    intro v hv
    have := hns v hv
    cases v <;> simp_all [JValue.isStr]
  have hderive : deriveEnumTypeName vals pn acr = convertToGoFieldName pn acr := by
    simp [deriveEnumTypeName, hstr]
  have hisEmpty : vals.isEmpty = false := by
    cases vals with
    | nil => exact absurd rfl hne
    | cons a l => rfl
  refine ⟨hderive, ?_, ?_⟩
  · simp [extractInlineEnums, allEnumEntries, enumEntriesOfDef, lookupJ, asObj,
      inlineEnumEntryOfProp, asArr, hisEmpty, hderive, upsert]
  · simp [generateEnumTypeChunks, descriptionChunks, lookupJ, asStr, hstr,
      sortStrings, List.insertionSort, findCommonPrefix]

/-- Witness for C10 at the concrete input `{"level": {"enum": [1]}}`. -/
theorem c10_witness :
    deriveEnumTypeName [JValue.num 1] "level" defaultAcr =
      convertToGoFieldName "level" defaultAcr ∧
    extractInlineEnums
        [("D", .obj [("properties",
            .obj [("level", .obj [("enum", .arr [JValue.num 1])])])])] defaultAcr =
      [(convertToGoFieldName "level" defaultAcr,
        ⟨[JValue.num 1], [("description", .null), ("type", .str "string")]⟩)] ∧
    generateEnumTypeChunks (convertToGoFieldName "level" defaultAcr)
        [("description", .null), ("type", .str "string")] [JValue.num 1]
        defaultAcr defaultOptions =
      ["type " ++ convertToGoFieldName "level" defaultAcr ++ " " ++ "string" ++ "\n\n",
       "// " ++ convertToGoFieldName "level" defaultAcr ++ " enum values\nconst (\n",
       ")\n\n"] :=
  c10_nonstring_inline_enum [JValue.num 1] "level" "D" defaultAcr defaultOptions
    (by simp) (by simp [JValue.isStr])

/-! ### Supporting lemmas for the identifier synthesizer claims -/

theorem isLower_toNat {c : Char} : c.isLower = true ↔ 97 ≤ c.toNat ∧ c.toNat ≤ 122 := by
  simp only [Char.isLower, Bool.and_eq_true, decide_eq_true_eq, ge_iff_le]
  exact ⟨fun h => ⟨h.1, h.2⟩, fun h => ⟨h.1, h.2⟩⟩

theorem isUpper_toNat {c : Char} : c.isUpper = true ↔ 65 ≤ c.toNat ∧ c.toNat ≤ 90 := by
  simp only [Char.isUpper, Bool.and_eq_true, decide_eq_true_eq, ge_iff_le]
  exact ⟨fun h => ⟨h.1, h.2⟩, fun h => ⟨h.1, h.2⟩⟩

theorem isDigit_toNat {c : Char} : c.isDigit = true ↔ 48 ≤ c.toNat ∧ c.toNat ≤ 57 := by
  simp only [Char.isDigit, Bool.and_eq_true, decide_eq_true_eq, ge_iff_le]
  exact ⟨fun h => ⟨h.1, h.2⟩, fun h => ⟨h.1, h.2⟩⟩

theorem char_eq_of_toNat {c d : Char} (h : c.toNat = d.toNat) : c = d := by
  exact Char.ext (UInt32.ext h)

theorem toNat_ofNat_lt {n : Nat} (h : n < 55296) : (Char.ofNat n).toNat = n := by
  rw [Char.ofNat, dif_pos (Or.inl h)]
  simp [Char.ofNatAux, Char.toNat, UInt32.toNat]

theorem toUpper_toNat_of_lower {c : Char} (h : c.isLower = true) :
    (c.toUpper).toNat = c.toNat - 32 := by
  obtain ⟨h1, h2⟩ := isLower_toNat.mp h
  rw [Char.toUpper, if_pos ⟨h1, h2⟩]
  exact toNat_ofNat_lt (by omega)

theorem isUpper_toUpper_of_lower {c : Char} (h : c.isLower = true) :
    (c.toUpper).isUpper = true := by
  obtain ⟨h1, h2⟩ := isLower_toNat.mp h
  rw [isUpper_toNat, toUpper_toNat_of_lower h]
  omega

theorem toUpper_of_not_lower {c : Char} (h : c.isLower = false) : c.toUpper = c := by
  rw [Char.toUpper, if_neg]
  intro hc
  rw [isLower_toNat.mpr ⟨hc.1, hc.2⟩] at h
  exact absurd h (by decide)

theorem toLower_of_not_upper {c : Char} (h : c.isUpper = false) : c.toLower = c := by
  rw [Char.toLower, if_neg]
  intro hc
  rw [isUpper_toNat.mpr ⟨hc.1, hc.2⟩] at h
  exact absurd h (by decide)

theorem lower_not_upper {c : Char} (h : c.isLower = true) : c.isUpper = false := by
  obtain ⟨h1, h2⟩ := isLower_toNat.mp h
  cases hu : c.isUpper with
  | false => rfl
  | true =>
    obtain ⟨g1, g2⟩ := isUpper_toNat.mp hu
    omega

theorem lower_not_digit {c : Char} (h : c.isLower = true) : c.isDigit = false := by
  obtain ⟨h1, h2⟩ := isLower_toNat.mp h
  cases hu : c.isDigit with
  | false => rfl
  | true =>
    obtain ⟨g1, g2⟩ := isDigit_toNat.mp hu
    omega

theorem upper_not_lower {c : Char} (h : c.isUpper = true) : c.isLower = false := by
  obtain ⟨h1, h2⟩ := isUpper_toNat.mp h
  cases hu : c.isLower with
  | false => rfl
  | true =>
    obtain ⟨g1, g2⟩ := isLower_toNat.mp hu
    omega

theorem upper_not_digit {c : Char} (h : c.isUpper = true) : c.isDigit = false := by
  obtain ⟨h1, h2⟩ := isUpper_toNat.mp h
  cases hu : c.isDigit with
  | false => rfl
  | true =>
    obtain ⟨g1, g2⟩ := isDigit_toNat.mp hu
    omega

theorem digit_not_lower {c : Char} (h : c.isDigit = true) : c.isLower = false := by
  obtain ⟨h1, h2⟩ := isDigit_toNat.mp h
  cases hu : c.isLower with
  | false => rfl
  | true =>
    obtain ⟨g1, g2⟩ := isLower_toNat.mp hu
    omega

theorem digit_not_upper {c : Char} (h : c.isDigit = true) : c.isUpper = false := by
  obtain ⟨h1, h2⟩ := isDigit_toNat.mp h
  cases hu : c.isUpper with
  | false => rfl
  | true =>
    obtain ⟨g1, g2⟩ := isUpper_toNat.mp hu
    omega

theorem toLower_toUpper_of_lower {c : Char} (h : c.isLower = true) :
    (c.toUpper).toLower = c := by
  obtain ⟨h1, h2⟩ := isLower_toNat.mp h
  have hu := isUpper_toUpper_of_lower h
  obtain ⟨g1, g2⟩ := isUpper_toNat.mp hu
  rw [Char.toLower, if_pos ⟨g1, g2⟩]
  apply char_eq_of_toNat
  rw [toNat_ofNat_lt (by omega), toUpper_toNat_of_lower h]
  omega

/-- Lowercase letters and digits count as neither `_`, `-`, `.` nor a
space. -/
theorem lower_or_digit_not_special {c : Char}
    (h : c.isLower = true ∨ c.isDigit = true) :
    c ≠ '_' ∧ c ≠ '-' ∧ c ≠ '.' ∧ c ≠ ' ' := by
  have hbound : 97 ≤ c.toNat ∧ c.toNat ≤ 122 ∨ 48 ≤ c.toNat ∧ c.toNat ≤ 57 := by
    rcases h with h | h
    · exact Or.inl (isLower_toNat.mp h)
    · exact Or.inr (isDigit_toNat.mp h)
  refine ⟨?_, ?_, ?_, ?_⟩ <;> (intro he; subst he; exact absurd hbound (by decide))

theorem upper_or_digit_not_special {c : Char}
    (h : c.isUpper = true ∨ c.isDigit = true) :
    c ≠ '_' ∧ c ≠ '-' ∧ c ≠ '.' ∧ c ≠ ' ' := by
  have hbound : 65 ≤ c.toNat ∧ c.toNat ≤ 90 ∨ 48 ≤ c.toNat ∧ c.toNat ≤ 57 := by
    rcases h with h | h
    · exact Or.inl (isUpper_toNat.mp h)
    · exact Or.inr (isDigit_toNat.mp h)
  refine ⟨?_, ?_, ?_, ?_⟩ <;> (intro he; subst he; exact absurd hbound (by decide))


theorem finalizeIdent_ok (r1 : List Char) :
    finalizeIdent r1 ≠ [] ∧
    (match finalizeIdent r1 with
     | c :: _ => c.isDigit
     | [] => false) = false := by
  match r1 with
  | [] => exact ⟨by decide, by decide⟩
  | c :: rest =>
    by_cases hdg : c.isDigit
    · have hf : finalizeIdent (c :: rest) = "Field".data ++ c :: rest := by
        simp [finalizeIdent, hdg]
      rw [hf]
      exact ⟨by simp, by rfl⟩
    · have hf : finalizeIdent (c :: rest) = c :: rest := by
        simp [finalizeIdent, hdg]
      rw [hf]
      exact ⟨by simp, by simp [Bool.of_not_eq_true hdg]⟩

theorem convertChars_ok (cs : List Char) (acr : AcrTable) (h : cs ≠ []) :
    convertChars cs acr ≠ [] ∧
    (match convertChars cs acr with
     | c :: _ => c.isDigit
     | [] => false) = false := by
  by_cases hm : cs = "_meta".data
  · rw [convertChars, if_neg h, if_pos hm]
    exact ⟨by decide, by decide⟩
  · by_cases hn1 : cs.dropWhile isTrimChar = []
    · have hcc : convertChars cs acr = "Field".data := by
        rw [convertChars, if_neg h, if_neg hm]
        simp [hn1]
      rw [hcc]
      exact ⟨by decide, by decide⟩
    · have hcc : convertChars cs acr =
          finalizeIdent (upperFirst
            (((finalPartsOf (cleanedName (cs.dropWhile isTrimChar))).map
              (mapPart acr)).flatten)) := by
        rw [convertChars, if_neg h, if_neg hm]
        simp [hn1]
      rw [hcc]
      exact finalizeIdent_ok _

/-- C5, amended.  For every non-empty input string and every acronym
table, the identifier synthesizer returns a non-empty string that does
not begin with a digit (the empty input, on which the claim fails, is
the single early return of the empty string). -/
theorem c5_amended_nonempty_no_digit (s : String) (acr : AcrTable) (hne : s ≠ "") :
    convertToGoFieldName s acr ≠ "" ∧
    startsWithDigit (convertToGoFieldName s acr) = false := by
  have hd : s.data ≠ [] := by
    intro hdat
    apply hne
    cases s with
    | mk data =>
      simp only at hdat
      rw [hdat]
  have key := convertChars_ok s.data acr hd
  constructor
  · intro hemp
    apply key.1
    have hdata : (convertToGoFieldName s acr).data = "".data := by rw [hemp]
    simpa [convertToGoFieldName] using hdata
  · have hrw : startsWithDigit (convertToGoFieldName s acr) =
        (match convertChars s.data acr with
         | c :: _ => c.isDigit
         | [] => false) := rfl
    rw [hrw]
    exact key.2

/-- Witness for C5 (amended) at the concrete input `"x"`. -/
theorem c5_amended_witness :
    convertToGoFieldName "x" defaultAcr ≠ "" ∧
    startsWithDigit (convertToGoFieldName "x" defaultAcr) = false :=
  c5_amended_nonempty_no_digit "x" defaultAcr (by decide)

/-- No lowercase-to-uppercase adjacency: the camel splitter introduces no
boundary between such a pair. -/
def noLU (a b : Char) : Prop := (a.isLower && b.isUpper) = false

theorem dropWhile_head_not {p : α → Bool} :
    ∀ {l : List α} {c : α} {t : List α}, l.dropWhile p = c :: t → p c = false := by
  intro l
  induction l with
  | nil => intro c t h; simp [List.dropWhile] at h
  | cons a l ih =>
    intro c t h
    by_cases hp : p a
    · rw [List.dropWhile_cons_of_pos hp] at h
      exact ih h
    · rw [List.dropWhile_cons_of_neg hp] at h
      cases h
      exact Bool.of_not_eq_true hp

theorem map_eq_self_of_id {f : α → α} {l : List α} (h : ∀ a ∈ l, f a = a) :
    l.map f = l := by
  rw [List.map_congr_left h]
  simp

theorem splitCamelAux_no_split :
    ∀ (l : List Char) (cur : List Char) (prev : Char),
      List.Chain' noLU (prev :: l) →
      splitCamelAux cur prev l = [cur.reverse ++ l] := by
  intro l
  induction l with
  | nil => intro cur prev _; simp [splitCamelAux]
  | cons c rest ih =>
    intro cur prev hch
    rw [List.chain'_cons] at hch
    have hcond : (c.isUpper && prev.isLower) = false := by
      have := hch.1
      rw [noLU] at this
      cases hu : c.isUpper <;> cases hl : prev.isLower <;> simp_all
    rw [splitCamelAux, if_neg (by simp [hcond])]
    rw [ih (c :: cur) c hch.2]
    simp

theorem splitCamelGo_single {l : List Char} (hne : l ≠ [])
    (h : List.Chain' noLU l) : splitCamelGo l = [l] := by
  cases l with
  | nil => exact absurd rfl hne
  | cons c rest =>
    rw [splitCamelGo, splitCamelAux_no_split rest [c] c h]
    simp

theorem chain_noLU_of_no_upper {l : List Char} (h : ∀ b ∈ l, b.isUpper = false) :
    List.Chain' noLU l := by
  induction l with
  | nil => simp
  | cons a l ih =>
    rw [List.chain'_cons']
    refine ⟨?_, ih fun b hb => h b (List.mem_cons_of_mem a hb)⟩
    intro y hy
    have : y ∈ l := List.mem_of_mem_head? hy
    rw [noLU, h y (List.mem_cons_of_mem a this)]
    simp

theorem chain_noLU_of_no_lower {l : List Char} (h : ∀ a ∈ l, a.isLower = false) :
    List.Chain' noLU l := by
  induction l with
  | nil => simp
  | cons a l ih =>
    rw [List.chain'_cons']
    refine ⟨?_, ih fun b hb => h b (List.mem_cons_of_mem a hb)⟩
    intro y _
    rw [noLU, h a (List.mem_cons_self a l)]
    simp

theorem splitOnChar_no_sep {sep : Char} :
    ∀ {l : List Char}, (∀ c ∈ l, c ≠ sep) → splitOnChar sep l = [l] := by
  intro l
  induction l with
  | nil => intro _; rfl
  | cons c rest ih =>
    intro h
    rw [splitOnChar, if_neg (h c (List.mem_cons_self c rest)),
      ih fun d hd => h d (List.mem_cons_of_mem c hd)]

theorem splitUnd_no_sep {l : List Char} (h : ∀ c ∈ l, c ≠ '_') :
    splitUnd l = [l] :=
  splitOnChar_no_sep h

theorem alnum_not_special {c : Char}
    (h : c.isLower = true ∨ c.isUpper = true ∨ c.isDigit = true) :
    c ≠ '_' ∧ c ≠ '-' ∧ c ≠ '.' ∧ c ≠ ' ' := by
  rcases h with h | h | h
  · exact lower_or_digit_not_special (Or.inl h)
  · exact upper_or_digit_not_special (Or.inl h)
  · exact lower_or_digit_not_special (Or.inr h)

theorem goTitleAux_map_toLower :
    ∀ (l : List Char) (b : Bool),
      (∀ c ∈ l, c.isLower = true ∨ c.isDigit = true) →
      (goTitleAux b l).map Char.toLower = l := by
  intro l
  induction l with
  | nil => intro b _; rfl
  | cons c rest ih =>
    intro b h
    have hrest : ∀ d ∈ rest, d.isLower = true ∨ d.isDigit = true :=
      fun d hd => h d (List.mem_cons_of_mem c hd)
    rcases h c (List.mem_cons_self c rest) with hl | hd
    · rw [goTitleAux, if_pos hl]
      cases b with
      | true => simp [toLower_toUpper_of_lower hl, ih false hrest]
      | false => simp [toLower_of_not_upper (lower_not_upper hl), ih false hrest]
    · rw [goTitleAux, if_neg (by rw [digit_not_lower hd]; simp)]
      simp [toLower_of_not_upper (digit_not_upper hd), ih _ hrest]

theorem goTitleAux_charset :
    ∀ (l : List Char) (b : Bool) (c' : Char),
      (∀ c ∈ l, c.isLower = true ∨ c.isDigit = true) →
      c' ∈ goTitleAux b l →
      c'.isLower = true ∨ c'.isUpper = true ∨ c'.isDigit = true := by
  intro l
  induction l with
  | nil => intro b c' _ hm; simp [goTitleAux] at hm
  | cons c rest ih =>
    intro b c' h hm
    have hrest : ∀ d ∈ rest, d.isLower = true ∨ d.isDigit = true :=
      fun d hd => h d (List.mem_cons_of_mem c hd)
    rcases h c (List.mem_cons_self c rest) with hl | hd
    · rw [goTitleAux, if_pos hl] at hm
      rcases List.mem_cons.mp hm with rfl | hm'
      · cases b with
        | true => exact Or.inr (Or.inl (isUpper_toUpper_of_lower hl))
        | false => exact Or.inl hl
      · exact ih false c' hrest hm'
    · rw [goTitleAux, if_neg (by rw [digit_not_lower hd]; simp)] at hm
      rcases List.mem_cons.mp hm with rfl | hm'
      · exact Or.inr (Or.inr hd)
      · exact ih _ c' hrest hm'

theorem goTitleAux_chain_head :
    ∀ (l : List Char),
      (∀ c ∈ l, c.isLower = true ∨ c.isDigit = true) →
      List.Chain' noLU (goTitleAux true l) ∧
      List.Chain' noLU (goTitleAux false l) ∧
      (∀ c' t', goTitleAux false l = c' :: t' → c'.isUpper = false) := by
  intro l
  induction l with
  | nil => exact fun _ => ⟨by simp [goTitleAux], by simp [goTitleAux], by intro c' t' h; simp [goTitleAux] at h⟩
  | cons c rest ih =>
    intro h
    have hrest : ∀ d ∈ rest, d.isLower = true ∨ d.isDigit = true :=
      fun d hd => h d (List.mem_cons_of_mem c hd)
    obtain ⟨ihT, ihF, ihH⟩ := ih hrest
    have headR : ∀ (x : Char), ∀ y ∈ (goTitleAux false rest).head?, noLU x y := by
      intro x y hy
      have hyhead := List.mem_of_mem_head? hy
      cases hrf : goTitleAux false rest with
      | nil => rw [hrf] at hy; simp at hy
      | cons c' t' =>
        rw [hrf] at hy
        simp at hy
        subst hy
        rw [noLU, ihH _ _ hrf]
        simp
    rcases h c (List.mem_cons_self c rest) with hl | hd
    · have harmT : goTitleAux true (c :: rest) = c.toUpper :: goTitleAux false rest := by
        rw [goTitleAux, if_pos hl]
        simp
      have harmF : goTitleAux false (c :: rest) = c :: goTitleAux false rest := by
        rw [goTitleAux, if_pos hl]
        simp
      refine ⟨?_, ?_, ?_⟩
      · rw [harmT, List.chain'_cons']
        exact ⟨headR _, ihF⟩
      · rw [harmF, List.chain'_cons']
        exact ⟨headR _, ihF⟩
      · intro c' t' hfe
        rw [harmF] at hfe
        cases hfe
        exact lower_not_upper hl
    · have hcond : ¬ c.isLower = true := by rw [digit_not_lower hd]; simp
      have harm : ∀ b, goTitleAux b (c :: rest) = c :: goTitleAux true rest := by
        intro b
        rw [goTitleAux, if_neg hcond, digit_not_lower hd, digit_not_upper hd]
        simp
      have hch : List.Chain' noLU (c :: goTitleAux true rest) := by
        rw [List.chain'_cons']
        refine ⟨?_, ihT⟩
        intro y _
        rw [noLU, digit_not_lower hd]
        simp
      refine ⟨?_, ?_, ?_⟩
      · rw [harm]; exact hch
      · rw [harm]; exact hch
      · intro c' t' hfe
        rw [harm] at hfe
        cases hfe
        exact digit_not_upper hd

/-- When the whole trimmed name is a single word-part (no camel boundary,
no underscore), `convertChars` reduces to the final steps applied to that
one part. -/
theorem convertChars_single_part (cs y : List Char) (acr : AcrTable)
    (hne : cs ≠ []) (hm : cs ≠ "_meta".data)
    (hdw : cs.dropWhile isTrimChar = y) (hyne : y ≠ [])
    (hclean : cleanedName y = y)
    (hsplit : splitCamelGo y = [y])
    (hund : splitUnd y = [y]) :
    convertChars cs acr = finalizeIdent (upperFirst (mapPart acr y)) := by
  rw [convertChars, if_neg hne, if_neg hm]
  simp only [hdw]
  rw [if_neg hyne, finalPartsOf, hclean, hsplit]
  simp [hund, hyne]

/-- `convertChars` is the identity on a word that starts with an
uppercase letter, contains only alphanumerics, has no
lowercase-to-uppercase adjacency, and is a fixed point of the per-part
capitalisation. -/
theorem convertChars_id_of (w : List Char) (acr : AcrTable)
    (c' : Char) (t' : List Char) (hw : w = c' :: t') (hcup : c'.isUpper = true)
    (hcharset : ∀ c ∈ w, c.isLower = true ∨ c.isUpper = true ∨ c.isDigit = true)
    (hchain : List.Chain' noLU w)
    (hmp : mapPart acr w = w) :
    convertChars w acr = w := by
  have hne : w ≠ [] := by rw [hw]; simp
  have hmeta : w ≠ "_meta".data := by
    intro h
    rw [hw] at h
    injection h with h1 _
    rw [h1] at hcup
    exact absurd hcup (by decide)
  have hctrim : isTrimChar c' = false := by
    rw [isTrimChar, upper_not_digit hcup]
    have := (upper_or_digit_not_special (Or.inl hcup)).1
    simp [this]
  have hdw : w.dropWhile isTrimChar = w := by
    rw [hw]
    rw [List.dropWhile_cons_of_neg (by rw [hctrim]; simp)]
  have hclean : cleanedName w = w := by
    rw [cleanedName]
    rw [map_eq_self_of_id (fun c hc => by
      obtain ⟨_, h2, h3, h4⟩ := alnum_not_special (hcharset c hc)
      rw [replaceSepChar]
      simp [h2, h3, h4])]
    rw [List.filter_eq_self.mpr]
    intro c hc
    rw [isIdentChar]
    rcases hcharset c hc with h | h | h <;> simp [h]
  have hsp : splitCamelGo w = [w] := splitCamelGo_single hne hchain
  have hund : splitUnd w = [w] :=
    splitUnd_no_sep fun c hc => (alnum_not_special (hcharset c hc)).1
  rw [convertChars_single_part w w acr hne hmeta hdw hne hclean hsp hund, hmp, hw]
  rw [upperFirst, if_neg (by rw [upper_not_lower hcup]; simp)]
  rw [finalizeIdent, if_neg (by rw [upper_not_digit hcup]; simp)]

/-- C8, amended.  On inputs consisting solely of lowercase ASCII letters
and digits, with at least one letter, the identifier synthesizer is
idempotent.  (In general it is not: word-part boundaries are lost in the
concatenated output whenever a part is rendered fully uppercase, see the
counterexample `toIdentifier("id_a") = "IDA"`,
`toIdentifier("IDA") = "Ida"`.) -/
theorem c8_amended_idempotent_on_lower_alnum (s : String) (acr : AcrTable)
    (hchars : ∀ c ∈ s.data, c.isLower = true ∨ c.isDigit = true)
    (hletter : ∃ c ∈ s.data, c.isLower = true) :
    convertToGoFieldName (convertToGoFieldName s acr) acr =
      convertToGoFieldName s acr := by
  obtain ⟨cl, hclmem, hcllow⟩ := hletter
  have hcsne : s.data ≠ [] := by
    intro h
    rw [h] at hclmem
    simp at hclmem
  have hmeta : s.data ≠ "_meta".data := by
    intro h
    have hu : '_' ∈ s.data := by rw [h]; decide
    rcases hchars _ hu with h' | h' <;> exact absurd h' (by decide)
  have hy : s.data.dropWhile isTrimChar = s.data.dropWhile isTrimChar := rfl
  generalize hyy : s.data.dropWhile isTrimChar = y at hy
  have hysub : ∀ c ∈ y, c ∈ s.data := by
    intro c hc
    rw [← hyy] at hc
    exact (List.dropWhile_sublist _).subset hc
  have hychars : ∀ c ∈ y, c.isLower = true ∨ c.isDigit = true :=
    fun c hc => hchars c (hysub c hc)
  have hyne : y ≠ [] := by
    intro h
    rw [h] at hyy
    rw [List.dropWhile_eq_nil_iff] at hyy
    have htr := hyy cl hclmem
    rw [isTrimChar, lower_not_digit hcllow,
      (by simp [(lower_or_digit_not_special (Or.inl hcllow)).1] :
        decide (cl = '_') = false)] at htr
    simp at htr
  obtain ⟨c0, t0, hy0⟩ : ∃ c0 t0, y = c0 :: t0 := by
    cases y with
    | nil => exact absurd rfl hyne
    | cons a b => exact ⟨a, b, rfl⟩
  have hc0trim : isTrimChar c0 = false := dropWhile_head_not (hy0 ▸ hyy)
  have hc0low : c0.isLower = true := by
    rcases hychars c0 (hy0 ▸ List.mem_cons_self c0 t0) with hl | hd
    · exact hl
    · rw [isTrimChar, hd] at hc0trim
      simp at hc0trim
  have hclean : cleanedName y = y := by
    rw [cleanedName]
    rw [map_eq_self_of_id (fun c hc => by
      obtain ⟨_, h2, h3, h4⟩ := lower_or_digit_not_special (hychars c hc)
      rw [replaceSepChar]
      simp [h2, h3, h4])]
    rw [List.filter_eq_self.mpr]
    intro c hc
    rw [isIdentChar]
    rcases hychars c hc with h | h <;> simp [h]
  have hyup : ∀ b ∈ y, b.isUpper = false := by
    intro b hb
    rcases hychars b hb with h | h
    · exact lower_not_upper h
    · exact digit_not_upper h
  have hsplit : splitCamelGo y = [y] :=
    splitCamelGo_single hyne (chain_noLU_of_no_upper hyup)
  have hund : splitUnd y = [y] :=
    splitUnd_no_sep fun c hc => (lower_or_digit_not_special (hychars c hc)).1
  have hmaplow : y.map Char.toLower = y :=
    map_eq_self_of_id fun c hc => toLower_of_not_upper (hyup c hc)
  have happ1 : convertChars s.data acr = finalizeIdent (upperFirst (mapPart acr y)) :=
    convertChars_single_part s.data y acr hcsne hmeta hyy hyne hclean hsplit hund
  have hgoal : ∀ w : List Char, convertChars s.data acr = w → convertChars w acr = w →
      convertToGoFieldName (convertToGoFieldName s acr) acr =
        convertToGoFieldName s acr := by
    intro w h1 h2
    show (⟨convertChars (convertToGoFieldName s acr).data acr⟩ : String) =
      ⟨convertChars s.data acr⟩
    have hdat : (convertToGoFieldName s acr).data = convertChars s.data acr := rfl
    rw [hdat, h1, h2]
  by_cases ha : acr ⟨y⟩ = true
  · -- acronym branch: the first application yields `y.map Char.toUpper`
    have hmp1 : mapPart acr y = y.map Char.toUpper := by
      rw [mapPart]
      simp only [hmaplow, ha, if_pos]
    have huchars : ∀ c ∈ y.map Char.toUpper,
        c.isLower = true ∨ c.isUpper = true ∨ c.isDigit = true := by
      intro c hc
      rw [List.mem_map] at hc
      obtain ⟨d, hd, rfl⟩ := hc
      rcases hychars d hd with hl | hdg
      · exact Or.inr (Or.inl (isUpper_toUpper_of_lower hl))
      · rw [toUpper_of_not_lower (digit_not_lower hdg)]
        exact Or.inr (Or.inr hdg)
    have hulow : ∀ c ∈ y.map Char.toUpper, c.isLower = false := by
      intro c hc
      rcases huchars c hc with h | h | h
      · rw [List.mem_map] at hc
        obtain ⟨d, hd, rfl⟩ := hc
        rcases hychars d hd with hl | hdg
        · exact upper_not_lower (isUpper_toUpper_of_lower hl)
        · rw [toUpper_of_not_lower (digit_not_lower hdg)]
          exact digit_not_lower hdg
      · exact upper_not_lower h
      · exact digit_not_lower h
    have humaplow : (y.map Char.toUpper).map Char.toLower = y := by
      rw [List.map_map]
      apply map_eq_self_of_id
      intro c hc
      rcases hychars c hc with hl | hdg
      · exact toLower_toUpper_of_lower hl
      · show (c.toUpper).toLower = c
        rw [toUpper_of_not_lower (digit_not_lower hdg),
          toLower_of_not_upper (digit_not_upper hdg)]
    have hf1 : convertChars s.data acr = y.map Char.toUpper := by
      rw [happ1, hmp1, hy0, List.map_cons]
      rw [upperFirst,
        if_neg (by rw [upper_not_lower (isUpper_toUpper_of_lower hc0low)]; simp)]
      rw [finalizeIdent,
        if_neg (by rw [upper_not_digit (isUpper_toUpper_of_lower hc0low)]; simp)]
    have hf2 : convertChars (y.map Char.toUpper) acr = y.map Char.toUpper := by
      apply convertChars_id_of (y.map Char.toUpper) acr c0.toUpper
        (t0.map Char.toUpper) (by rw [hy0]; rfl)
        (isUpper_toUpper_of_lower hc0low) huchars
        (chain_noLU_of_no_lower hulow)
      rw [mapPart]
      simp only [humaplow, ha, if_pos]
    exact hgoal _ hf1 hf2
  · -- title branch: the first application yields `goTitle y`
    have hmp1 : mapPart acr y = goTitle y := by
      rw [mapPart]
      simp only [hmaplow, ha, if_neg]
      simp [ha]
    obtain ⟨hchT, _, _⟩ := goTitleAux_chain_head y hychars
    have htform : goTitle y = c0.toUpper :: goTitleAux false t0 := by
      rw [hy0, goTitle, goTitleAux, if_pos hc0low]
      simp
    have htchars : ∀ c ∈ goTitle y,
        c.isLower = true ∨ c.isUpper = true ∨ c.isDigit = true :=
      fun c hc => goTitleAux_charset y true c hychars hc
    have htmaplow : (goTitle y).map Char.toLower = y :=
      goTitleAux_map_toLower y true hychars
    have hf1 : convertChars s.data acr = goTitle y := by
      rw [happ1, hmp1, htform]
      rw [upperFirst,
        if_neg (by rw [upper_not_lower (isUpper_toUpper_of_lower hc0low)]; simp)]
      rw [finalizeIdent,
        if_neg (by rw [upper_not_digit (isUpper_toUpper_of_lower hc0low)]; simp)]
    have hf2 : convertChars (goTitle y) acr = goTitle y := by
      apply convertChars_id_of (goTitle y) acr c0.toUpper (goTitleAux false t0)
        htform (isUpper_toUpper_of_lower hc0low) htchars hchT
      rw [mapPart]
      simp only [htmaplow]
      simp [ha]
    exact hgoal _ hf1 hf2

/-- Witness for C8 (amended) at the concrete input `"task3state"`. -/
theorem c8_amended_witness :
    convertToGoFieldName (convertToGoFieldName "task3state" defaultAcr) defaultAcr =
      convertToGoFieldName "task3state" defaultAcr :=
  c8_amended_idempotent_on_lower_alnum "task3state" defaultAcr
    (by decide) (by decide)

/-- C4, amended.  In struct rendering, for every object-shaped property:
a property listed in `required` keeps its resolved type unwrapped; a
property neither required nor carrying a `default` is wrapped in `*`
unless its already-resolved type is a sequence (`[]...`), a map
(`map[...]`) or already pointer-shaped (`*...`), which are left as-is;
and the rendered line (field name, the so-determined type, and the
serialization tag with `omitempty` exactly when not required) is emitted
inside the struct's chunk list. -/
theorem c4_amended_wrapper_rule (typeName : String) (defMap pm props : JObj)
    (propName : String) (definitions : JObj) (acr : AcrTable)
    (opts : GeneratorOptions)
    (hprops : lookupJ defMap "properties" = some (.obj props))
    (hpm : lookupJ props propName = some (.obj pm))
    (hmem : propName ∈ keysOf props)
    (hany : containsKeyJ defMap "anyOf" = false)
    (hone : containsKeyJ defMap "oneOf" = false)
    (hall : containsKeyJ defMap "allOf" = false) :
    (requiredSetOf defMap propName = true →
      structFieldType (requiredSetOf defMap propName) (hasDefaultValue pm)
          (resolvedPropType pm propName definitions acr) =
        resolvedPropType pm propName definitions acr) ∧
    (requiredSetOf defMap propName = false → hasDefaultValue pm = false →
      structFieldType (requiredSetOf defMap propName) (hasDefaultValue pm)
          (resolvedPropType pm propName definitions acr) =
        (if hasPrefixChars "*".data (resolvedPropType pm propName definitions acr).data ||
            hasPrefixChars "[]".data (resolvedPropType pm propName definitions acr).data ||
            hasPrefixChars "map[".data (resolvedPropType pm propName definitions acr).data
         then resolvedPropType pm propName definitions acr
         else "*" ++ resolvedPropType pm propName definitions acr)) ∧
    structFieldLine defMap pm propName definitions acr =
      "\t" ++ convertToGoFieldName propName acr ++ " " ++
        structFieldType (requiredSetOf defMap propName) (hasDefaultValue pm)
          (resolvedPropType pm propName definitions acr) ++ " " ++
        ("`json:\"" ++ propName ++
          (if !requiredSetOf defMap propName then ",omitempty" else "") ++ "\"`") ++
        "\n" ∧
    structFieldLine defMap pm propName definitions acr ∈
      generateComplexTypeChunks typeName defMap definitions acr opts := by
  refine ⟨?_, ?_, rfl, ?_⟩
  · intro hreq
    rw [structFieldType, hreq]
    simp
  · intro hreq hdef
    rw [structFieldType, hreq, hdef]
    by_cases hpre :
        (hasPrefixChars "*".data (resolvedPropType pm propName definitions acr).data ||
         hasPrefixChars "[]".data (resolvedPropType pm propName definitions acr).data ||
         hasPrefixChars "map[".data (resolvedPropType pm propName definitions acr).data) = true
    · rw [if_pos hpre]
      simp [hpre]
    · rw [if_neg hpre]
      simp only [Bool.not_eq_true] at hpre
      simp [hpre]
  · have hline : structFieldLine defMap pm propName definitions acr ∈
        structFieldLines defMap definitions acr := by
      rw [structFieldLines, hprops]
      simp only [asObj]
      apply List.mem_filterMap.mpr
      refine ⟨propName, ?_, ?_⟩
      · exact (List.perm_insertionSort _ _).mem_iff.mpr hmem
      · rw [hpm]
    have hpk : containsKeyJ defMap "properties" = true := by
      rw [containsKeyJ, hprops]
      rfl
    have h1 : ((asStr (lookupJ defMap "type")).isSome &&
        !containsKeyJ defMap "properties") = false := by
      rw [hpk]
      simp
    rw [generateComplexTypeChunks, h1, hany, hone, hall]
    simp only [Bool.false_eq_true, if_false]
    exact List.mem_append.mpr (Or.inr (List.mem_append.mpr
      (Or.inl (List.mem_append.mpr (Or.inr hline)))))

/-- Witness for C4 (amended) at a concrete struct with one required and
one optional property. -/
theorem c4_amended_witness :
    (requiredSetOf [("properties", .obj [("p", .obj [("type", .str "string")])]),
                    ("required", .arr [.str "p"])] "p" = true →
      structFieldType
          (requiredSetOf [("properties", .obj [("p", .obj [("type", .str "string")])]),
                          ("required", .arr [.str "p"])] "p")
          (hasDefaultValue [("type", .str "string")])
          (resolvedPropType [("type", .str "string")] "p" [] defaultAcr) =
        resolvedPropType [("type", .str "string")] "p" [] defaultAcr) ∧
    (requiredSetOf [("properties", .obj [("p", .obj [("type", .str "string")])]),
                    ("required", .arr [.str "p"])] "p" = false →
      hasDefaultValue [("type", .str "string")] = false →
      structFieldType
          (requiredSetOf [("properties", .obj [("p", .obj [("type", .str "string")])]),
                          ("required", .arr [.str "p"])] "p")
          (hasDefaultValue [("type", .str "string")])
          (resolvedPropType [("type", .str "string")] "p" [] defaultAcr) =
        (if hasPrefixChars "*".data (resolvedPropType [("type", .str "string")] "p" [] defaultAcr).data ||
            hasPrefixChars "[]".data (resolvedPropType [("type", .str "string")] "p" [] defaultAcr).data ||
            hasPrefixChars "map[".data (resolvedPropType [("type", .str "string")] "p" [] defaultAcr).data
         then resolvedPropType [("type", .str "string")] "p" [] defaultAcr
         else "*" ++ resolvedPropType [("type", .str "string")] "p" [] defaultAcr)) ∧
    structFieldLine [("properties", .obj [("p", .obj [("type", .str "string")])]),
                     ("required", .arr [.str "p"])] [("type", .str "string")] "p" [] defaultAcr =
      "\t" ++ convertToGoFieldName "p" defaultAcr ++ " " ++
        structFieldType
          (requiredSetOf [("properties", .obj [("p", .obj [("type", .str "string")])]),
                          ("required", .arr [.str "p"])] "p")
          (hasDefaultValue [("type", .str "string")])
          (resolvedPropType [("type", .str "string")] "p" [] defaultAcr) ++ " " ++
        ("`json:\"" ++ "p" ++
          (if !requiredSetOf [("properties", .obj [("p", .obj [("type", .str "string")])]),
                              ("required", .arr [.str "p"])] "p"
           then ",omitempty" else "") ++ "\"`") ++ "\n" ∧
    structFieldLine [("properties", .obj [("p", .obj [("type", .str "string")])]),
                     ("required", .arr [.str "p"])] [("type", .str "string")] "p" [] defaultAcr ∈
      generateComplexTypeChunks "T"
        [("properties", .obj [("p", .obj [("type", .str "string")])]),
         ("required", .arr [.str "p"])] [] defaultAcr defaultOptions :=
  c4_amended_wrapper_rule "T"
    [("properties", .obj [("p", .obj [("type", .str "string")])]),
     ("required", .arr [.str "p"])]
    [("type", .str "string")] [("p", .obj [("type", .str "string")])] "p" []
    defaultAcr defaultOptions rfl rfl (by decide) rfl rfl rfl

/-! ### Supporting lemmas for the common-prefix claims -/

theorem lcp2_nil_left (b : List Char) : lcp2 [] b = [] := by
  cases b <;> rfl

theorem lcp2_nil_right : ∀ a : List Char, lcp2 a [] = [] := by
  intro a
  cases a <;> rfl

theorem foldl_lcp2_nil : ∀ rs : List (List Char), rs.foldl lcp2 [] = [] := by
  intro rs
  induction rs with
  | nil => rfl
  | cons r rs ih => rw [List.foldl_cons, lcp2_nil_left, ih]

/-- The two-string longest common prefix is a prefix of its left input. -/
theorem lcp2_prefix_left : ∀ a b : List Char, (lcp2 a b).IsPrefix a := by
  intro a
  induction a with
  | nil => intro b; rw [lcp2_nil_left]
  | cons x a' ih =>
    intro b
    cases b with
    | nil => rw [lcp2_nil_right]; exact List.nil_prefix
    | cons y b' =>
      rw [lcp2]
      by_cases hxy : x = y
      · rw [if_pos hxy]
        exact List.cons_prefix_cons.mpr ⟨rfl, ih b'⟩
      · rw [if_neg hxy]
        exact List.nil_prefix

/-- The two-string longest common prefix is a prefix of its right input. -/
theorem lcp2_prefix_right : ∀ a b : List Char, (lcp2 a b).IsPrefix b := by
  intro a
  induction a with
  | nil => intro b; rw [lcp2_nil_left]; exact List.nil_prefix
  | cons x a' ih =>
    intro b
    cases b with
    | nil => rw [lcp2_nil_right]
    | cons y b' =>
      rw [lcp2]
      by_cases hxy : x = y
      · rw [if_pos hxy, hxy]
        exact List.cons_prefix_cons.mpr ⟨rfl, ih b'⟩
      · rw [if_neg hxy]
        exact List.nil_prefix

/-- Any common prefix of `a` and `b` is a prefix of `lcp2 a b`
(maximality). -/
theorem lcp2_maximal : ∀ (p a b : List Char), p.IsPrefix a → p.IsPrefix b →
    p.IsPrefix (lcp2 a b) := by
  intro p
  induction p with
  | nil => intro a b _ _; exact List.nil_prefix
  | cons x p' ih =>
    intro a b hpa hpb
    obtain ⟨ta, hta⟩ := hpa
    obtain ⟨tb, htb⟩ := hpb
    subst hta
    subst htb
    rw [List.cons_append, List.cons_append, lcp2, if_pos rfl]
    exact List.cons_prefix_cons.mpr ⟨rfl, ih _ _ ⟨ta, rfl⟩ ⟨tb, rfl⟩⟩

theorem lcp2_eq_left_iff : ∀ a b : List Char, lcp2 a b = a ↔ a.isPrefixOf b = true := by
  intro a
  induction a with
  | nil =>
    intro b
    exact ⟨fun _ => by cases b <;> rfl, fun _ => lcp2_nil_left b⟩
  | cons x a' ih =>
    intro b
    cases b with
    | nil =>
      rw [lcp2_nil_right]
      constructor
      · intro h
        exact absurd h.symm (List.cons_ne_nil x a')
      · intro h
        rw [show (x :: a').isPrefixOf [] = false from rfl] at h
        simp at h
    | cons y b' =>
      rw [lcp2, List.isPrefixOf]
      by_cases hxy : x = y
      · rw [if_pos hxy]
        simp only [List.cons.injEq, hxy, true_and, beq_self_eq_true, Bool.true_and]
        exact ih b'
      · rw [if_neg hxy]
        constructor
        · intro h
          exact absurd h.symm (List.cons_ne_nil x a')
        · intro h
          rw [(beq_eq_false_iff_ne.mpr hxy : (x == y) = false)] at h
          simp at h

theorem lcp2_dropLast : ∀ a b : List Char, lcp2 a b ≠ a →
    lcp2 a.dropLast b = lcp2 a b := by
  intro a
  induction a with
  | nil => intro b h; exact absurd (lcp2_nil_left b) h
  | cons x a' ih =>
    intro b h
    cases b with
    | nil => simp [lcp2_nil_right]
    | cons y b' =>
      by_cases hxy : x = y
      · rw [lcp2, if_pos hxy] at h ⊢
        have ha' : a' ≠ [] := by
          intro hnil
          subst hnil
          rw [lcp2_nil_left] at h
          exact h rfl
        have hrec : lcp2 a' b' ≠ a' := by
          intro he
          rw [he] at h
          exact h rfl
        have hdl : (x :: a').dropLast = x :: a'.dropLast := by
          cases a' with
          | nil => exact absurd rfl ha'
          | cons z t => rfl
        rw [hdl, lcp2, if_pos hxy, ih b' hrec]
      · rw [lcp2, if_neg hxy] at h ⊢
        cases hd : (x :: a').dropLast with
        | nil => exact lcp2_nil_left _
        | cons z t =>
          have hzx : z = x := by
            cases a' with
            | nil => simp at hd
            | cons w a'' =>
              rw [List.dropLast_cons₂] at hd
              cases hd
              rfl
          rw [lcp2, hzx, if_neg hxy]

theorem shrinkToRev_eq : ∀ (rp : List Char) (str : List Char), rp ≠ [] →
    shrinkToRev str rp =
      if lcp2 rp.reverse str = [] then none else some (lcp2 rp.reverse str) := by
  intro rp
  induction rp with
  | nil => intro str h; exact absurd rfl h
  | cons c rp' ih =>
    intro str _
    rw [shrinkToRev]
    by_cases hp : ((c :: rp').reverse).isPrefixOf str = true
    · rw [if_pos hp]
      have hlcp : lcp2 ((c :: rp').reverse) str = (c :: rp').reverse :=
        (lcp2_eq_left_iff _ _).mpr hp
      rw [hlcp, if_neg (by simp)]
    · rw [if_neg hp]
      have hne2 : lcp2 ((c :: rp').reverse) str ≠ (c :: rp').reverse := by
        intro he
        exact hp ((lcp2_eq_left_iff _ _).mp he)
      have hdl : ((c :: rp').reverse).dropLast = rp'.reverse := by
        rw [List.reverse_cons]
        exact List.dropLast_concat
      have hstep : lcp2 rp'.reverse str = lcp2 ((c :: rp').reverse) str := by
        rw [← hdl]
        exact lcp2_dropLast _ _ hne2
      by_cases hrp : rp' = []
      · subst hrp
        have hz : lcp2 (([c] : List Char).reverse) str = [] := by
          rw [← hstep, List.reverse_nil]
          exact lcp2_nil_left str
        rw [if_pos rfl, hz, if_pos rfl]
      · rw [if_neg hrp, ih str hrp, hstep]

theorem shrinkTo_eq (str pfx : List Char) (hne : pfx ≠ []) :
    shrinkTo str pfx =
      if lcp2 pfx str = [] then none else some (lcp2 pfx str) := by
  rw [shrinkTo, shrinkToRev_eq pfx.reverse str (by simp [hne]), List.reverse_reverse]

theorem shrinkAll_eq :
    ∀ (rs : List (List Char)) (s0 : List Char), s0 ≠ [] →
      shrinkAll s0 rs =
        if rs.foldl lcp2 s0 = [] then none else some (rs.foldl lcp2 s0) := by
  intro rs
  induction rs with
  | nil =>
    intro s0 h
    rw [shrinkAll, List.foldl_nil, if_neg h]
  | cons r rs' ih =>
    intro s0 h
    rw [shrinkAll, shrinkTo_eq r s0 h, List.foldl_cons]
    by_cases hz : lcp2 s0 r = []
    · rw [if_pos hz, hz, foldl_lcp2_nil, if_pos rfl]
    · rw [if_neg hz]
      show shrinkAll (lcp2 s0 r) rs' = _
      rw [ih (lcp2 s0 r) hz]

/-- C6, amended.  For a non-empty list of non-empty strings,
`findCommonPrefix` accepts (returns a non-empty prefix) iff the maximal
shared literal prefix is non-empty and either (a) it is longer than 2
characters and already ends in `'_'`, or (b) at least one input string
has `'_'` immediately following it — the longer-than-2 requirement
guards only case (a). -/
theorem c6_amended_accept_iff (strs : List String)
    (hne : strs ≠ []) (hnn : ∀ s ∈ strs, s ≠ "") :
    (findCommonPrefix strs ≠ "" ↔
      lcpOfStrs strs ≠ [] ∧
      (((lcpOfStrs strs).length > 2 ∧ (lcpOfStrs strs).getLast? = some '_') ∨
       ∃ s ∈ strs, (lcpOfStrs strs).length < s.data.length ∧
         s.data.getD (lcpOfStrs strs).length ' ' = '_')) := by
  obtain ⟨s0, rest, rfl⟩ : ∃ s0 rest, strs = s0 :: rest := by
    cases strs with
    | nil => exact absurd rfl hne
    | cons a b => exact ⟨a, b, rfl⟩
  have hs0 : s0.data ≠ [] := by
    intro h
    apply hnn s0 (List.mem_cons_self s0 rest)
    cases s0 with
    | mk d =>
      simp only at h
      rw [h]
  have hlcp : lcpOfStrs (s0 :: rest) = (rest.map String.data).foldl lcp2 s0.data := rfl
  rw [findCommonPrefix, shrinkAll_eq (rest.map String.data) s0.data hs0]
  by_cases hp : (rest.map String.data).foldl lcp2 s0.data = []
  · rw [if_pos hp]
    simp only [hlcp, hp]
    simp
  · rw [if_neg hp]
    simp only [hlcp]
    by_cases hc1 : ((rest.map String.data).foldl lcp2 s0.data).length > 2 ∧
        ((rest.map String.data).foldl lcp2 s0.data).getLast? = some '_'
    · rw [if_pos (by rw [decide_eq_true hc1.1, decide_eq_true hc1.2]; rfl)]
      constructor
      · intro _
        exact ⟨hp, Or.inl hc1⟩
      · intro _ he
        apply hp
        have hthis : (String.mk ((rest.map String.data).foldl lcp2 s0.data)).data
            = "".data := by rw [he]
        simpa using hthis
    · rw [if_neg (by
        intro hb
        rcases (Bool.and_eq_true _ _).mp hb with ⟨hb1, hb2⟩
        exact hc1 ⟨of_decide_eq_true hb1, of_decide_eq_true hb2⟩)]
      by_cases hc2 : (s0 :: rest).any (fun s =>
          ((rest.map String.data).foldl lcp2 s0.data).length < s.data.length &&
          s.data.getD ((rest.map String.data).foldl lcp2 s0.data).length ' ' = '_') = true
      · rw [if_pos hc2]
        constructor
        · intro _
          refine ⟨hp, Or.inr ?_⟩
          obtain ⟨s, hs, hpred⟩ := List.any_eq_true.mp hc2
          rcases (Bool.and_eq_true _ _).mp hpred with ⟨h1, h2⟩
          exact ⟨s, hs, of_decide_eq_true h1, of_decide_eq_true h2⟩
        · intro _ he
          have hthis : (String.mk ((rest.map String.data).foldl lcp2 s0.data ++ ['_'])).data
              = "".data := by rw [he]
          simp at hthis
      · rw [if_neg hc2]
        constructor
        · intro h
          exact absurd rfl h
        · rintro ⟨_, hor | ⟨s, hs, h1, h2⟩⟩
          · exact absurd hor hc1
          · exact absurd (List.any_eq_true.mpr ⟨s, hs, by
              rw [decide_eq_true h1, decide_eq_true h2]; rfl⟩) hc2

/-- Witness for C6 (amended) at the concrete input `["a", "a_x"]`. -/
theorem c6_amended_witness :
    findCommonPrefix ["a", "a_x"] ≠ "" ↔
      lcpOfStrs ["a", "a_x"] ≠ [] ∧
      (((lcpOfStrs ["a", "a_x"]).length > 2 ∧
        (lcpOfStrs ["a", "a_x"]).getLast? = some '_') ∨
       ∃ s ∈ ["a", "a_x"], (lcpOfStrs ["a", "a_x"]).length < s.data.length ∧
         s.data.getD (lcpOfStrs ["a", "a_x"]).length ' ' = '_') :=
  c6_amended_accept_iff ["a", "a_x"] (by decide) (by decide)

/-! ### Supporting lemmas for the determinism claim -/

theorem charListLe_cons_iff {x y : Char} {as bs : List Char} :
    charListLe (x :: as) (y :: bs) = true ↔
      x < y ∨ (x = y ∧ charListLe as bs = true) := by
  rw [charListLe]
  rcases lt_trichotomy x y with h | h | h
  · rw [if_pos h]
    simp [h]
  · rw [if_neg (by rw [h]; exact lt_irrefl y), if_neg (by rw [h]; exact lt_irrefl y)]
    simp [h]
  · rw [if_neg (not_lt_of_gt h), if_pos h]
    constructor
    · intro hf
      exact absurd hf (by simp)
    · rintro (hlt | ⟨rfl, _⟩)
      · exact absurd h (not_lt_of_gt hlt)
      · exact absurd h (lt_irrefl x)

theorem charListLe_total : ∀ a b : List Char,
    charListLe a b = true ∨ charListLe b a = true := by
  intro a
  induction a with
  | nil => intro b; left; rfl
  | cons x as ih =>
    intro b
    cases b with
    | nil => right; rfl
    | cons y bs =>
      rcases lt_trichotomy x y with h | h | h
      · left
        exact charListLe_cons_iff.mpr (Or.inl h)
      · rcases ih bs with h' | h'
        · left
          exact charListLe_cons_iff.mpr (Or.inr ⟨h, h'⟩)
        · right
          exact charListLe_cons_iff.mpr (Or.inr ⟨h.symm, h'⟩)
      · right
        exact charListLe_cons_iff.mpr (Or.inl h)

theorem charListLe_trans : ∀ a b c : List Char,
    charListLe a b = true → charListLe b c = true → charListLe a c = true := by
  intro a
  induction a with
  | nil => intro b c _ _; rfl
  | cons x as ih =>
    intro b c hab hbc
    cases b with
    | nil => exact absurd hab (by rw [charListLe]; simp)
    | cons y bs =>
      cases c with
      | nil => exact absurd hbc (by rw [charListLe]; simp)
      | cons z cs =>
        rcases charListLe_cons_iff.mp hab with h1 | ⟨rfl, h1⟩ <;>
          rcases charListLe_cons_iff.mp hbc with h2 | ⟨he2, h2⟩
        · exact charListLe_cons_iff.mpr (Or.inl (lt_trans h1 h2))
        · exact charListLe_cons_iff.mpr (Or.inl (he2 ▸ h1))
        · exact charListLe_cons_iff.mpr (Or.inl h2)
        · exact charListLe_cons_iff.mpr (Or.inr ⟨he2, ih bs cs h1 h2⟩)

theorem charListLe_antisymm : ∀ a b : List Char,
    charListLe a b = true → charListLe b a = true → a = b := by
  intro a
  induction a with
  | nil =>
    intro b _ hba
    cases b with
    | nil => rfl
    | cons y bs => exact absurd hba (by rw [charListLe]; simp)
  | cons x as ih =>
    intro b hab hba
    cases b with
    | nil => exact absurd hab (by rw [charListLe]; simp)
    | cons y bs =>
      rcases charListLe_cons_iff.mp hab with h1 | ⟨rfl, h1⟩
      · rcases charListLe_cons_iff.mp hba with h2 | ⟨he2, _⟩
        · exact absurd h1 (not_lt_of_gt h2)
        · exact absurd h1 (he2 ▸ lt_irrefl y)
      · rcases charListLe_cons_iff.mp hba with h2 | ⟨_, h2⟩
        · exact absurd h2 (lt_irrefl x)
        · rw [ih bs h1 h2]

instance : IsTotal String strLe :=
  ⟨fun a b => charListLe_total a.data b.data⟩

instance : IsTrans String strLe :=
  ⟨fun a b c => charListLe_trans a.data b.data c.data⟩

instance : IsAntisymm String strLe :=
  ⟨fun a b hab hba => by
    cases a with
    | mk da =>
      cases b with
      | mk db =>
        have : da = db := charListLe_antisymm da db hab hba
        rw [this]⟩

/-- Two lists of strings that are permutations of each other sort to the
same list. -/
theorem sortStrings_eq_of_perm {l1 l2 : List String} (h : l1.Perm l2) :
    sortStrings l1 = sortStrings l2 :=
  List.eq_of_perm_of_sorted
    ((List.perm_insertionSort strLe l1).trans
      (h.trans (List.perm_insertionSort strLe l2).symm))
    (List.sorted_insertionSort strLe l1)
    (List.sorted_insertionSort strLe l2)

/-- The value the last write for key `k` in the entry sequence `E` left
behind, if any. -/
def lastVal : List (String × α) → String → Option α
  | [], _ => none
  | e :: rest, k =>
    match lastVal rest k with
    | some v => some v
    | none => if e.1 = k then some e.2 else none

theorem lookupA_upsert (m : List (String × α)) (a : String) (v : α) (k : String) :
    lookupA (upsert m a v) k = if a = k then some v else lookupA m k := by
  induction m with
  | nil => simp [upsert, lookupA]
  | cons e rest ih =>
    obtain ⟨k', v'⟩ := e
    by_cases hk : k' = a
    · subst hk
      by_cases hkk : k' = k <;> simp [upsert, lookupA, hkk]
    · by_cases hkk : k' = k
      · subst hkk
        have hak : ¬ a = k' := fun h => hk h.symm
        simp [upsert, hk, lookupA, hak]
      · simp [upsert, hk, lookupA, hkk, ih]

/-- Folding Go-map writes over an entry sequence: the last write for a
key wins, and keys never written keep their prior binding. -/
theorem lookupA_foldl_upsert :
    ∀ (E : List (String × α)) (m : List (String × α)) (k : String),
      lookupA (E.foldl (fun acc e => upsert acc e.1 e.2) m) k =
        match lastVal E k with
        | some v => some v
        | none => lookupA m k := by
  intro E
  induction E with
  | nil => intro m k; rfl
  | cons e E' ih =>
    intro m k
    rw [List.foldl_cons, ih, lastVal]
    cases lastVal E' k with
    | some v => rfl
    | none =>
      rw [lookupA_upsert]
      by_cases he : e.1 = k <;> simp [he]

theorem lastVal_mem : ∀ {E : List (String × α)} {k : String} {v : α},
    lastVal E k = some v → (k, v) ∈ E := by
  intro E
  induction E with
  | nil => intro k v h; simp [lastVal] at h
  | cons e E' ih =>
    intro k v h
    rw [lastVal] at h
    cases hE : lastVal E' k with
    | some w =>
      rw [hE] at h
      cases h
      exact List.mem_cons_of_mem e (ih hE)
    | none =>
      rw [hE] at h
      by_cases he : e.1 = k
      · rw [if_pos he] at h
        injection h with h2
        have hkv : (k, v) = e := by
          obtain ⟨e1, e2⟩ := e
          simp only at he h2
          rw [he, h2]
        rw [hkv]
        exact List.mem_cons_self e E'
      · rw [if_neg he] at h
        cases h

theorem mem_lastVal : ∀ {E : List (String × α)} {k : String} {v : α},
    (k, v) ∈ E → ∃ w, lastVal E k = some w := by
  intro E
  induction E with
  | nil => intro k v h; simp at h
  | cons e E' ih =>
    intro k v h
    rcases List.mem_cons.mp h with rfl | h'
    · rw [lastVal]
      cases hE : lastVal E' k with
      | some w => exact ⟨w, rfl⟩
      | none => exact ⟨v, by rw [if_pos rfl]⟩
    · obtain ⟨w, hw⟩ := ih h'
      rw [lastVal, hw]
      exact ⟨w, rfl⟩

theorem keysOf_cons (e : String × α) (m : List (String × α)) :
    keysOf (e :: m) = e.1 :: keysOf m := rfl

theorem any_eq_of_perm {l1 l2 : List α} (h : l1.Perm l2) (p : α → Bool) :
    l1.any p = l2.any p := by
  rw [Bool.eq_iff_iff]
  simp only [List.any_eq_true]
  exact ⟨fun ⟨x, hx, hp⟩ => ⟨x, h.mem_iff.mp hx, hp⟩,
         fun ⟨x, hx, hp⟩ => ⟨x, h.mem_iff.mpr hx, hp⟩⟩

theorem flatMap_congr_mem {l : List α} {f g : α → List β}
    (h : ∀ a ∈ l, f a = g a) : l.flatMap f = l.flatMap g := by
  induction l with
  | nil => rfl
  | cons x xs ih =>
    rw [List.flatMap_cons, List.flatMap_cons, h x (List.mem_cons_self x xs),
        ih fun a ha => h a (List.mem_cons_of_mem x ha)]

theorem upsert_cons_pos (k : String) (v v' : α) (rest : List (String × α)) :
    upsert ((k, v') :: rest) k v = (k, v) :: rest := by
  simp [upsert]

theorem upsert_cons_neg {k' k : String} (hk : k' ≠ k) (v v' : α)
    (rest : List (String × α)) :
    upsert ((k', v') :: rest) k v = (k', v') :: upsert rest k v := by
  simp [upsert, hk]

theorem mem_keys_upsert : ∀ (m : List (String × α)) (k : String) (v : α) (a : String),
    a ∈ keysOf (upsert m k v) ↔ a ∈ keysOf m ∨ a = k := by
  intro m k v a
  induction m with
  | nil => simp [upsert, keysOf]
  | cons e rest ih =>
    obtain ⟨k', v'⟩ := e
    by_cases hk : k' = k
    · subst hk
      rw [upsert_cons_pos, keysOf_cons, keysOf_cons]
      simp only [List.mem_cons]
      tauto
    · rw [upsert_cons_neg hk, keysOf_cons, keysOf_cons]
      simp only [List.mem_cons, ih]
      tauto

theorem nodup_keys_upsert : ∀ (m : List (String × α)) (k : String) (v : α),
    (keysOf m).Nodup → (keysOf (upsert m k v)).Nodup := by
  intro m k v
  induction m with
  | nil => intro _; simp [upsert, keysOf]
  | cons e rest ih =>
    intro h
    obtain ⟨k', v'⟩ := e
    rw [keysOf_cons, List.nodup_cons] at h
    by_cases hk : k' = k
    · subst hk
      rw [upsert_cons_pos, keysOf_cons, List.nodup_cons]
      exact h
    · rw [upsert_cons_neg hk, keysOf_cons, List.nodup_cons]
      refine ⟨?_, ih h.2⟩
      intro hmem
      rcases (mem_keys_upsert rest k v k').mp hmem with hm | he
      · exact h.1 hm
      · exact hk he

theorem mem_keys_foldl_upsert :
    ∀ (E : List (String × α)) (m : List (String × α)) (a : String),
      a ∈ keysOf (E.foldl (fun acc e => upsert acc e.1 e.2) m) ↔
        a ∈ keysOf m ∨ a ∈ keysOf E := by
  intro E
  induction E with
  | nil => intro m a; simp [keysOf]
  | cons e E' ih =>
    intro m a
    rw [List.foldl_cons, ih, mem_keys_upsert, keysOf_cons, List.mem_cons]
    tauto

theorem nodup_keys_foldl_upsert :
    ∀ (E m : List (String × α)), (keysOf m).Nodup →
      (keysOf (E.foldl (fun acc e => upsert acc e.1 e.2) m)).Nodup := by
  intro E
  induction E with
  | nil => intro m h; exact h
  | cons e E' ih =>
    intro m h
    rw [List.foldl_cons]
    exact ih _ (nodup_keys_upsert m e.1 e.2 h)

theorem lookupA_mem : ∀ {E : List (String × α)} {k : String} {v : α},
    lookupA E k = some v → (k, v) ∈ E := by
  intro E
  induction E with
  | nil => intro k v h; simp [lookupA] at h
  | cons e E' ih =>
    intro k v h
    obtain ⟨k', v'⟩ := e
    by_cases hk : k' = k
    · subst hk
      simp only [lookupA, if_pos rfl] at h
      injection h with h2
      rw [← h2]
      exact List.mem_cons_self _ _
    · simp only [lookupA, if_neg hk] at h
      exact List.mem_cons_of_mem _ (ih h)

theorem mem_lookupA : ∀ {E : List (String × α)} {k : String} {v : α},
    (k, v) ∈ E → ∃ w, lookupA E k = some w := by
  intro E
  induction E with
  | nil => intro k v h; simp at h
  | cons e E' ih =>
    intro k v h
    obtain ⟨k', v'⟩ := e
    by_cases hk : k' = k
    · exact ⟨v', by simp only [lookupA, if_pos hk]⟩
    · rcases List.mem_cons.mp h with he | h'
      · exact absurd (congrArg Prod.fst he).symm hk
      · obtain ⟨w, hw⟩ := ih h'
        exact ⟨w, by simp only [lookupA, if_neg hk]; exact hw⟩

/-- In an association list with no duplicate keys, entries sharing a key
carry equal values. -/
theorem pairs_coherent_of_nodup_keys : ∀ {E : List (String × α)},
    (keysOf E).Nodup → ∀ a ∈ E, ∀ b ∈ E, a.1 = b.1 → a.2 = b.2 := by
  intro E
  induction E with
  | nil => intro _ a ha; simp at ha
  | cons e E' ih =>
    intro hnd a ha b hb hk
    rw [keysOf_cons, List.nodup_cons] at hnd
    rcases List.mem_cons.mp ha with rfl | ha'
    · rcases List.mem_cons.mp hb with hbe | hb'
      · rw [hbe]
      · exact absurd (hk.symm ▸ List.mem_map_of_mem Prod.fst hb') hnd.1
    · rcases List.mem_cons.mp hb with hbe | hb'
      · have hae : a.1 = e.1 := hbe ▸ hk
        exact absurd (hae ▸ List.mem_map_of_mem Prod.fst ha') hnd.1
      · exact ih hnd.2 a ha' b hb' hk

/-- First-match association lookup is permutation invariant as soon as
entries sharing a key agree on the value. -/
theorem lookupA_eq_of_perm {E1 E2 : List (String × α)} (hp : E1.Perm E2)
    (hco : ∀ a ∈ E1, ∀ b ∈ E1, a.1 = b.1 → a.2 = b.2) (k : String) :
    lookupA E1 k = lookupA E2 k := by
  cases h1 : lookupA E1 k with
  | none =>
    cases h2 : lookupA E2 k with
    | none => rfl
    | some w =>
      obtain ⟨u, hu⟩ := mem_lookupA (hp.mem_iff.mpr (lookupA_mem h2))
      rw [h1] at hu
      cases hu
  | some v =>
    cases h2 : lookupA E2 k with
    | none =>
      obtain ⟨u, hu⟩ := mem_lookupA (hp.mem_iff.mp (lookupA_mem h1))
      rw [h2] at hu
      cases hu
    | some w =>
      exact congrArg some
        (hco _ (lookupA_mem h1) _ (hp.mem_iff.mpr (lookupA_mem h2)) rfl)

/-- Last-write-wins lookup is permutation invariant as soon as entries
sharing a key agree on the value. -/
theorem lastVal_eq_of_perm {E1 E2 : List (String × α)} (hp : E1.Perm E2)
    (hco : ∀ a ∈ E1, ∀ b ∈ E1, a.1 = b.1 → a.2 = b.2) (k : String) :
    lastVal E1 k = lastVal E2 k := by
  cases h1 : lastVal E1 k with
  | none =>
    cases h2 : lastVal E2 k with
    | none => rfl
    | some w =>
      obtain ⟨u, hu⟩ := mem_lastVal (hp.mem_iff.mpr (lastVal_mem h2))
      rw [h1] at hu
      cases hu
  | some v =>
    cases h2 : lastVal E2 k with
    | none =>
      obtain ⟨u, hu⟩ := mem_lastVal (hp.mem_iff.mp (lastVal_mem h1))
      rw [h2] at hu
      cases hu
    | some w =>
      exact congrArg some
        (hco _ (lastVal_mem h1) _ (hp.mem_iff.mpr (lastVal_mem h2)) rfl)

/-- The `definitions` argument of the type resolver is only ever threaded
through recursive calls and never read, so the result does not depend on
it. -/
theorem determineGoTypeF_defs_irrel : ∀ (fuel : Nat) (pm d1 d2 : JObj),
    determineGoTypeF fuel pm d1 = determineGoTypeF fuel pm d2 := by
  intro fuel
  induction fuel with
  | zero => intro pm d1 d2; rfl
  | succ n ih =>
    intro pm d1 d2
    have ihd : ∀ pm', determineGoTypeF n pm' d1 = determineGoTypeF n pm' d2 :=
      fun pm' => ih pm' d1 d2
    simp only [determineGoTypeF, ihd]

theorem determineGoType_defs_irrel (pm d1 d2 : JObj) :
    determineGoType pm d1 = determineGoType pm d2 :=
  determineGoTypeF_defs_irrel (jobjSize pm) pm d1 d2

theorem resolvedPropType_defs_irrel (pm : JObj) (n : String) (d1 d2 : JObj)
    (acr : AcrTable) :
    resolvedPropType pm n d1 acr = resolvedPropType pm n d2 acr := by
  simp only [resolvedPropType, determineGoType_defs_irrel pm d1 d2]

theorem structFieldLine_defs_irrel (dm pm : JObj) (n : String) (d1 d2 : JObj)
    (acr : AcrTable) :
    structFieldLine dm pm n d1 acr = structFieldLine dm pm n d2 acr := by
  simp only [structFieldLine, resolvedPropType_defs_irrel pm n d1 d2 acr]

theorem structFieldLines_defs_irrel (dm : JObj) (d1 d2 : JObj) (acr : AcrTable) :
    structFieldLines dm d1 acr = structFieldLines dm d2 acr := by
  have h : ∀ pm n, structFieldLine dm pm n d1 acr = structFieldLine dm pm n d2 acr :=
    fun pm n => structFieldLine_defs_irrel dm pm n d1 d2 acr
  simp only [structFieldLines, h]

theorem generateComplexTypeChunks_defs_irrel (n : String) (dm : JObj)
    (d1 d2 : JObj) (acr : AcrTable) (opts : GeneratorOptions) :
    generateComplexTypeChunks n dm d1 acr opts =
      generateComplexTypeChunks n dm d2 acr opts := by
  simp only [generateComplexTypeChunks, determineGoType_defs_irrel dm d1 d2,
             structFieldLines_defs_irrel dm d1 d2 acr]

theorem sortStrings_keys_eq_of_perm {L1 L2 : List (String × α)} (h : L1.Perm L2) :
    sortStrings (keysOf L1) = sortStrings (keysOf L2) :=
  sortStrings_eq_of_perm (h.map Prod.fst)

/-- Reading the coalesced inline-enum map is reading the last write in
the flattened entry sequence. -/
theorem lookupA_extractInlineEnums (L : List (String × JValue)) (acr : AcrTable)
    (k : String) :
    lookupA (extractInlineEnums L acr) k = lastVal (allEnumEntries acr L) k := by
  unfold extractInlineEnums
  rw [lookupA_foldl_upsert]
  cases lastVal (allEnumEntries acr L) k <;> rfl

theorem keys_extractInlineEnums_nodup (L : List (String × JValue)) (acr : AcrTable) :
    (keysOf (extractInlineEnums L acr)).Nodup :=
  nodup_keys_foldl_upsert (allEnumEntries acr L) [] (by simp [keysOf])

theorem mem_keys_extractInlineEnums (L : List (String × JValue)) (acr : AcrTable)
    (a : String) :
    a ∈ keysOf (extractInlineEnums L acr) ↔ a ∈ keysOf (allEnumEntries acr L) := by
  unfold extractInlineEnums
  rw [mem_keys_foldl_upsert]
  simp [keysOf]

theorem allEnumEntries_perm {L1 L2 : List (String × JValue)} (h : L1.Perm L2)
    (acr : AcrTable) : (allEnumEntries acr L1).Perm (allEnumEntries acr L2) :=
  h.flatMap_right _

/-- The sorted name list of the coalesced inline-enum map only depends on
the entry sequence up to permutation. -/
theorem sorted_inline_keys_eq {L1 L2 : List (String × JValue)} {acr : AcrTable}
    (hE : (allEnumEntries acr L1).Perm (allEnumEntries acr L2)) :
    sortStrings (keysOf (extractInlineEnums L1 acr)) =
      sortStrings (keysOf (extractInlineEnums L2 acr)) := by
  apply sortStrings_eq_of_perm
  apply (List.perm_ext_iff_of_nodup (keys_extractInlineEnums_nodup L1 acr)
    (keys_extractInlineEnums_nodup L2 acr)).mpr
  intro a
  rw [mem_keys_extractInlineEnums, mem_keys_extractInlineEnums]
  exact (hE.map Prod.fst).mem_iff

theorem headerChunk_eq_of_perm {L1 L2 : List (String × JValue)} (h : L1.Perm L2)
    (opts : GeneratorOptions) : headerChunk L1 opts = headerChunk L2 opts := by
  simp only [headerChunk, any_eq_of_perm h]

theorem inline_section_eq {L1 L2 : List (String × JValue)} {acr : AcrTable}
    (hE : (allEnumEntries acr L1).Perm (allEnumEntries acr L2))
    (opts : GeneratorOptions)
    (hco : ∀ a ∈ allEnumEntries acr L1, ∀ b ∈ allEnumEntries acr L1,
      a.1 = b.1 → a.2 = b.2) :
    inlineChunksOf (extractInlineEnums L1 acr) acr opts =
      inlineChunksOf (extractInlineEnums L2 acr) acr opts := by
  unfold inlineChunksOf
  rw [sorted_inline_keys_eq hE]
  apply flatMap_congr_mem
  intro n _
  simp only [lookupA_extractInlineEnums L1 acr n, lookupA_extractInlineEnums L2 acr n,
             lastVal_eq_of_perm hE hco n]

theorem enumDef_section_eq {L1 L2 : List (String × JValue)} (hp : L1.Perm L2)
    (hnd : (keysOf L1).Nodup) (acr : AcrTable) (opts : GeneratorOptions) :
    enumDefChunksOf L1 acr opts = enumDefChunksOf L2 acr opts := by
  unfold enumDefChunksOf
  rw [sortStrings_keys_eq_of_perm hp]
  apply flatMap_congr_mem
  intro n _
  simp only [lookupA_eq_of_perm hp (pairs_coherent_of_nodup_keys hnd) n]

theorem processedOf_eq {L1 L2 : List (String × JValue)} (hp : L1.Perm L2)
    (hnd : (keysOf L1).Nodup) (inlineNames : List String) (n : String) :
    processedOf inlineNames L1 n = processedOf inlineNames L2 n := by
  simp only [processedOf, lookupA_eq_of_perm hp (pairs_coherent_of_nodup_keys hnd) n]

theorem complex_section_eq {L1 L2 : List (String × JValue)} (hp : L1.Perm L2)
    (hnd : (keysOf L1).Nodup) (inlineNames : List String)
    (acr : AcrTable) (opts : GeneratorOptions) :
    complexChunksOf inlineNames L1 acr opts =
      complexChunksOf inlineNames L2 acr opts := by
  unfold complexChunksOf
  rw [sortStrings_keys_eq_of_perm hp]
  apply flatMap_congr_mem
  intro n _
  have hgen : ∀ dm, generateComplexTypeChunks n dm L1 acr opts =
      generateComplexTypeChunks n dm L2 acr opts :=
    fun dm => generateComplexTypeChunks_defs_irrel n dm L1 L2 acr opts
  simp only [lookupA_eq_of_perm hp (pairs_coherent_of_nodup_keys hnd) n,
             processedOf_eq hp hnd inlineNames n, hgen]

/-! ### Fuel irrelevance and permutation invariance of `containsTimeType` -/

theorem bool_or_congr {a b c d : Bool} (h1 : a = c) (h2 : b = d) :
    (a || b) = (c || d) := by rw [h1, h2]

theorem bool_or_left_comm : ∀ a b c : Bool, (a || (b || c)) = (b || (a || c)) := by
  decide

theorem jvalSize_pos : ∀ v : JValue, 1 ≤ jvalSize v := by
  intro v
  cases v <;> simp [jvalSize]

theorem jobjSize_nil_of_le_zero {dm : JObj} (h : jobjSize dm ≤ 0) : dm = [] := by
  cases dm with
  | nil => rfl
  | cons e rest =>
    exfalso
    have := jvalSize_pos e.2
    simp [jobjSize] at h

theorem jarrSize_nil_of_le_zero {xs : List JValue} (h : jarrSize xs ≤ 0) : xs = [] := by
  cases xs with
  | nil => rfl
  | cons v rest =>
    exfalso
    have := jvalSize_pos v
    simp [jarrSize] at h

theorem containsTimeTypeF_nil : ∀ f, containsTimeTypeF f [] = false := by
  intro f
  cases f <;> rfl

theorem containsTimePropsF_nil : ∀ f, containsTimePropsF f [] = false := by
  intro f
  cases f <;> rfl

theorem containsTimeElemsF_nil : ∀ f, containsTimeElemsF f [] = false := by
  intro f
  cases f <;> rfl

theorem containsTimePropsF_cons (f : Nat) (e : String × JValue) (rest : JObj) :
    containsTimePropsF (f+1) (e :: rest) =
      ((match e.2 with | .obj pm => containsTimeTypeF f pm | _ => false) ||
       containsTimePropsF f rest) := by
  obtain ⟨k, v⟩ := e
  cases v <;> simp [containsTimePropsF]

theorem containsTimeElemsF_cons (f : Nat) (v : JValue) (rest : List JValue) :
    containsTimeElemsF (f+1) (v :: rest) =
      ((match v with | .obj sm => containsTimeTypeF f sm | _ => false) ||
       containsTimeElemsF f rest) := by
  cases v <;> simp [containsTimeElemsF]

/-- Any recursion budget at least the structural size gives the
`containsTimeType` recursion the same answer (joint statement for the
three mutual functions, by induction on a size bound). -/
theorem containsTime_irrel : ∀ N : Nat,
    (∀ f1 f2 dm, jobjSize dm ≤ N → jobjSize dm ≤ f1 → jobjSize dm ≤ f2 →
      containsTimeTypeF f1 dm = containsTimeTypeF f2 dm) ∧
    (∀ f1 f2 props, jobjSize props ≤ N → jobjSize props ≤ f1 → jobjSize props ≤ f2 →
      containsTimePropsF f1 props = containsTimePropsF f2 props) ∧
    (∀ f1 f2 elems, jarrSize elems ≤ N → jarrSize elems ≤ f1 → jarrSize elems ≤ f2 →
      containsTimeElemsF f1 elems = containsTimeElemsF f2 elems) := by
  intro N
  induction N with
  | zero =>
    refine ⟨?_, ?_, ?_⟩
    · intro f1 f2 dm hN _ _
      rw [jobjSize_nil_of_le_zero hN, containsTimeTypeF_nil, containsTimeTypeF_nil]
    · intro f1 f2 props hN _ _
      rw [jobjSize_nil_of_le_zero hN, containsTimePropsF_nil, containsTimePropsF_nil]
    · intro f1 f2 elems hN _ _
      rw [jarrSize_nil_of_le_zero hN, containsTimeElemsF_nil, containsTimeElemsF_nil]
  | succ n ih =>
    obtain ⟨ihT, ihP, ihE⟩ := ih
    refine ⟨?_, ?_, ?_⟩
    · intro f1 f2 dm hN h1 h2
      cases dm with
      | nil => rw [containsTimeTypeF_nil, containsTimeTypeF_nil]
      | cons e rest =>
        have hpos := jvalSize_pos e.2
        have hsz : 2 ≤ jobjSize (e :: rest) := by simp [jobjSize]; omega
        cases f1 with
        | zero => omega
        | succ g1 =>
          cases f2 with
          | zero => omega
          | succ g2 =>
            simp only [containsTimeTypeF]
            refine bool_or_congr (bool_or_congr (bool_or_congr
              (bool_or_congr (bool_or_congr rfl ?_) ?_) ?_) ?_) ?_
            · cases hp : asObj (lookupJ (e :: rest) "properties") with
              | none => rfl
              | some props =>
                have hlt := jvalSize_lookupJ (asObj_eq_some hp)
                simp only [jvalSize] at hlt
                exact ihP g1 g2 props (by omega) (by omega) (by omega)
            · cases hp : asObj (lookupJ (e :: rest) "items") with
              | none => rfl
              | some items =>
                have hlt := jvalSize_lookupJ (asObj_eq_some hp)
                simp only [jvalSize] at hlt
                exact ihT g1 g2 items (by omega) (by omega) (by omega)
            · cases hp : asArr (lookupJ (e :: rest) "anyOf") with
              | none => rfl
              | some schemas =>
                have hlt := jvalSize_lookupJ (asArr_eq_some hp)
                simp only [jvalSize] at hlt
                exact ihE g1 g2 schemas (by omega) (by omega) (by omega)
            · cases hp : asArr (lookupJ (e :: rest) "oneOf") with
              | none => rfl
              | some schemas =>
                have hlt := jvalSize_lookupJ (asArr_eq_some hp)
                simp only [jvalSize] at hlt
                exact ihE g1 g2 schemas (by omega) (by omega) (by omega)
            · cases hp : asArr (lookupJ (e :: rest) "allOf") with
              | none => rfl
              | some schemas =>
                have hlt := jvalSize_lookupJ (asArr_eq_some hp)
                simp only [jvalSize] at hlt
                exact ihE g1 g2 schemas (by omega) (by omega) (by omega)
    · intro f1 f2 props hN h1 h2
      cases props with
      | nil => rw [containsTimePropsF_nil, containsTimePropsF_nil]
      | cons e rest =>
        have hpos := jvalSize_pos e.2
        simp only [jobjSize] at hN h1 h2
        cases f1 with
        | zero => omega
        | succ g1 =>
          cases f2 with
          | zero => omega
          | succ g2 =>
            rw [containsTimePropsF_cons g1 e rest, containsTimePropsF_cons g2 e rest]
            refine bool_or_congr ?_ (ihP g1 g2 rest (by omega) (by omega) (by omega))
            cases hv : e.2 with
            | obj pm =>
              rw [hv] at hpos hN h1 h2
              simp only [jvalSize] at hN h1 h2
              exact ihT g1 g2 pm (by omega) (by omega) (by omega)
            | null => rfl
            | bool b => rfl
            | num m => rfl
            | str s => rfl
            | arr a => rfl
    · intro f1 f2 elems hN h1 h2
      cases elems with
      | nil => rw [containsTimeElemsF_nil, containsTimeElemsF_nil]
      | cons v rest =>
        have hpos := jvalSize_pos v
        simp only [jarrSize] at hN h1 h2
        cases f1 with
        | zero => omega
        | succ g1 =>
          cases f2 with
          | zero => omega
          | succ g2 =>
            rw [containsTimeElemsF_cons g1 v rest, containsTimeElemsF_cons g2 v rest]
            refine bool_or_congr ?_ (ihE g1 g2 rest (by omega) (by omega) (by omega))
            cases hv : v with
            | obj sm =>
              rw [hv] at hpos hN h1 h2
              simp only [jvalSize] at hN h1 h2
              exact ihT g1 g2 sm (by omega) (by omega) (by omega)
            | null => rfl
            | bool b => rfl
            | num m => rfl
            | str s => rfl
            | arr a => rfl

theorem containsTimeTypeF_irrel {f1 f2 : Nat} {dm : JObj}
    (h1 : jobjSize dm ≤ f1) (h2 : jobjSize dm ≤ f2) :
    containsTimeTypeF f1 dm = containsTimeTypeF f2 dm :=
  (containsTime_irrel (jobjSize dm)).1 f1 f2 dm le_rfl h1 h2

theorem jobjSize_perm : ∀ {p1 p2 : JObj}, p1.Perm p2 → jobjSize p1 = jobjSize p2 := by
  intro p1 p2 hp
  induction hp with
  | nil => rfl
  | cons z _ ih => simp [jobjSize, ih]
  | swap x y t => simp [jobjSize]; omega
  | trans _ _ ih1 ih2 => rw [ih1, ih2]

/-- Iterating a `properties` map in any order gives the same
date/time-format verdict. -/
theorem containsTimePropsF_perm : ∀ {p1 p2 : JObj}, p1.Perm p2 →
    ∀ fuel, jobjSize p1 ≤ fuel →
      containsTimePropsF fuel p1 = containsTimePropsF fuel p2 := by
  intro p1 p2 hp
  induction hp with
  | nil => intro fuel _; rfl
  | @cons z t1 t2 hperm ih =>
    intro fuel hf
    have hz := jvalSize_pos z.2
    simp only [jobjSize] at hf
    cases fuel with
    | zero => omega
    | succ g =>
      rw [containsTimePropsF_cons g z t1, containsTimePropsF_cons g z t2,
          ih g (by omega)]
  | swap x y t =>
    intro fuel hf
    have hx := jvalSize_pos x.2
    have hy := jvalSize_pos y.2
    simp only [jobjSize] at hf
    cases fuel with
    | zero => omega
    | succ g =>
      cases g with
      | zero => omega
      | succ g2 =>
        rw [containsTimePropsF_cons (g2+1) y (x :: t), containsTimePropsF_cons g2 x t,
            containsTimePropsF_cons (g2+1) x (y :: t), containsTimePropsF_cons g2 y t]
        have hm : ∀ (v : JValue), jvalSize v + 1 ≤ g2 + 2 →
            (match v with | .obj pm => containsTimeTypeF (g2+1) pm | _ => false) =
            (match v with | .obj pm => containsTimeTypeF g2 pm | _ => false) := by
          intro v hvb
          cases v with
          | obj pm =>
            simp only [jvalSize] at hvb
            exact containsTimeTypeF_irrel (by omega) (by omega)
          | null => rfl
          | bool b => rfl
          | num m => rfl
          | str s => rfl
          | arr a => rfl
        rw [hm y.2 (by omega), hm x.2 (by omega)]
        exact bool_or_left_comm _ _ _
  | trans hp1 hp2 ih1 ih2 =>
    intro fuel hf
    rw [ih1 fuel hf, ih2 fuel (by rw [← jobjSize_perm hp1]; exact hf)]

/-- Enum coherence: any two qualifying inline-enum properties that derive
the same type name contribute identical records (same value list, same
description).  This is the proviso under which the last-write-wins
coalescing of `extractInlineEnums` is harmless. -/
def EnumCoherent (acr : AcrTable) (defs : List (String × JValue)) : Prop :=
  ∀ a ∈ allEnumEntries acr defs, ∀ b ∈ allEnumEntries acr defs,
    a.1 = b.1 → a.2 = b.2

/-- Generation is invariant under permuting the collected definitions
list, given distinct definition names and coherent same-named inline-enum
records. -/
theorem generateFromDefs_eq_of_perm
    (L1 L2 : List (String × JValue)) (opts : GeneratorOptions)
    (hperm : L1.Perm L2) (hnd : (keysOf L1).Nodup)
    (hco : EnumCoherent (mergedAcr opts) L1) :
    generateFromDefs L1 opts = generateFromDefs L2 opts := by
  have hco' : ∀ a ∈ allEnumEntries (mergedAcr opts) L1,
      ∀ b ∈ allEnumEntries (mergedAcr opts) L1, a.1 = b.1 → a.2 = b.2 := hco
  have hE := allEnumEntries_perm hperm (mergedAcr opts)
  simp only [generateFromDefs]
  rw [headerChunk_eq_of_perm hperm opts,
      inline_section_eq hE opts hco',
      enumDef_section_eq hperm hnd (mergedAcr opts) opts,
      sorted_inline_keys_eq hE,
      complex_section_eq hperm hnd
        (sortStrings (keysOf (extractInlineEnums L2 (mergedAcr opts))))
        (mergedAcr opts) opts]

/-! ### Reordering a definition's `properties` map

A fresh Go map iteration order for the same parsed schema reorders the
definitions map and each definition's `properties` map.  `propEntryEq`
relates one binding of a definition fragment across the two orders: the
key is unchanged and the value is unchanged, except that the object
stored under the `properties` key may have its entry list permuted. -/

def propEntryEq (e1 e2 : String × JValue) : Prop :=
  e1.1 = e2.1 ∧
  (e1.2 = e2.2 ∨ (e1.1 = "properties" ∧
    ∃ p1 p2, e1.2 = .obj p1 ∧ e2.2 = .obj p2 ∧ p1.Perm p2))

/-- A definition value across two parses: unchanged, or an object whose
bindings are `propEntryEq`-related. -/
def defValEq (v1 v2 : JValue) : Prop :=
  v1 = v2 ∨ ∃ dm1 dm2, v1 = .obj dm1 ∧ v2 = .obj dm2 ∧
    List.Forall₂ propEntryEq dm1 dm2

/-- One binding of the collected definitions map across two parses. -/
def defEntryEq (d1 d2 : String × JValue) : Prop :=
  d1.1 = d2.1 ∧ defValEq d1.2 d2.2

/-- The collected definitions of two parses of the same schema: a
permutation of a pointwise `defEntryEq`-related list — i.e. the
definitions map and each definition's `properties` map may each be
iterated in a fresh order. -/
def defsEquiv (L1 L2 : List (String × JValue)) : Prop :=
  ∃ L3, List.Forall₂ defEntryEq L1 L3 ∧ L3.Perm L2

/-- Every definition's `properties` map carries distinct property names
(true of any map-derived input). -/
def PropsKeysNodup (defs : List (String × JValue)) : Prop :=
  ∀ d ∈ defs, ∀ dm p, d.2 = .obj dm →
    asObj (lookupJ dm "properties") = some p → (keysOf p).Nodup

theorem lookupJ_eq_lookupA : ∀ (m : JObj) (k : String), lookupJ m k = lookupA m k := by
  intro m k
  induction m with
  | nil => rfl
  | cons e rest ih =>
    obtain ⟨k1, v1⟩ := e
    by_cases hk : k1 = k
    · simp only [lookupJ, lookupA, if_pos hk]
    · simp only [lookupJ, lookupA, if_neg hk]
      exact ih

theorem lookupJ_eq_of_forall2 : ∀ {dm1 dm2 : JObj},
    List.Forall₂ propEntryEq dm1 dm2 → ∀ (k : String), k ≠ "properties" →
      lookupJ dm1 k = lookupJ dm2 k := by
  intro dm1 dm2 hF
  induction hF with
  | nil => intro k _; rfl
  | @cons a b t1 t2 hab ht ih =>
    intro k hk
    obtain ⟨ka, va⟩ := a
    obtain ⟨kb, vb⟩ := b
    obtain ⟨hkey, hval⟩ := hab
    have hkey2 : ka = kb := hkey
    subst hkey2
    by_cases hka : ka = k
    · rcases hval with heq | ⟨hprop, _⟩
      · have hv2 : va = vb := heq
        simp only [lookupJ, if_pos hka, hv2]
      · exact absurd (hka ▸ (show ka = "properties" from hprop)) hk
    · simp only [lookupJ, if_neg hka]
      exact ih k hk

theorem lookupJ_props_rel : ∀ {dm1 dm2 : JObj},
    List.Forall₂ propEntryEq dm1 dm2 →
    lookupJ dm1 "properties" = lookupJ dm2 "properties" ∨
    ∃ p1 p2, lookupJ dm1 "properties" = some (.obj p1) ∧
      lookupJ dm2 "properties" = some (.obj p2) ∧ p1.Perm p2 := by
  intro dm1 dm2 hF
  induction hF with
  | nil => exact Or.inl rfl
  | @cons a b t1 t2 hab ht ih =>
    obtain ⟨ka, va⟩ := a
    obtain ⟨kb, vb⟩ := b
    obtain ⟨hkey, hval⟩ := hab
    have hkey2 : ka = kb := hkey
    subst hkey2
    by_cases hka : ka = "properties"
    · rcases hval with heq | ⟨_, p1, p2, hv1, hv2, hpp⟩
      · left
        simp only [lookupJ, if_pos hka]
        exact congrArg some heq
      · right
        refine ⟨p1, p2, ?_, ?_, hpp⟩
        · simp only [lookupJ, if_pos hka]
          exact congrArg some hv1
        · simp only [lookupJ, if_pos hka]
          exact congrArg some hv2
    · simp only [lookupJ, if_neg hka]
      exact ih

theorem containsKeyJ_eq_of_forall2 {dm1 dm2 : JObj}
    (h : List.Forall₂ propEntryEq dm1 dm2) (k : String) :
    containsKeyJ dm1 k = containsKeyJ dm2 k := by
  by_cases hk : k = "properties"
  · subst hk
    rcases lookupJ_props_rel h with heq | ⟨p1, p2, h1, h2, _⟩
    · simp [containsKeyJ, heq]
    · simp [containsKeyJ, h1, h2]
  · simp [containsKeyJ, lookupJ_eq_of_forall2 h k hk]

theorem jvalSize_eq_of_propEntryEq {e1 e2 : String × JValue} (h : propEntryEq e1 e2) :
    jvalSize e1.2 = jvalSize e2.2 := by
  rcases h.2 with heq | ⟨_, p1, p2, h1, h2, hpp⟩
  · rw [heq]
  · rw [h1, h2]
    simp only [jvalSize, jobjSize_perm hpp]

theorem jobjSize_eq_of_forall2 : ∀ {dm1 dm2 : JObj},
    List.Forall₂ propEntryEq dm1 dm2 → jobjSize dm1 = jobjSize dm2 := by
  intro dm1 dm2 h
  induction h with
  | nil => rfl
  | @cons a b t1 t2 hab ht ih =>
    simp only [jobjSize, jvalSize_eq_of_propEntryEq hab, ih]

theorem keysOf_eq_of_forall2 : ∀ {L1 L2 : List (String × JValue)},
    List.Forall₂ defEntryEq L1 L2 → keysOf L1 = keysOf L2 := by
  intro L1 L2 h
  induction h with
  | nil => rfl
  | @cons a b t1 t2 hab ht ih =>
    simp only [keysOf_cons, hab.1, ih]

theorem lookupA_rel_of_forall2 : ∀ {L1 L2 : List (String × JValue)},
    List.Forall₂ defEntryEq L1 L2 → ∀ (n : String),
    (lookupA L1 n = none ∧ lookupA L2 n = none) ∨
    ∃ v1 v2, lookupA L1 n = some v1 ∧ lookupA L2 n = some v2 ∧ defValEq v1 v2 := by
  intro L1 L2 hF
  induction hF with
  | nil => intro n; exact Or.inl ⟨rfl, rfl⟩
  | @cons a b t1 t2 hab ht ih =>
    intro n
    obtain ⟨ka, va⟩ := a
    obtain ⟨kb, vb⟩ := b
    have hkey2 : ka = kb := hab.1
    subst hkey2
    by_cases hka : ka = n
    · right
      exact ⟨va, vb, by simp only [lookupA, if_pos hka],
             by simp only [lookupA, if_pos hka], hab.2⟩
    · simp only [lookupA, if_neg hka]
      exact ih n
/-- The date/time-format scan only reads a definition fragment through
key lookups and the `properties` iteration, so it is invariant under
reordering the `properties` map. -/
theorem containsTimeType_cong {dm1 dm2 : JObj}
    (h : List.Forall₂ propEntryEq dm1 dm2) :
    containsTimeType dm1 = containsTimeType dm2 := by
  have hsz := jobjSize_eq_of_forall2 h
  unfold containsTimeType
  rw [hsz]
  cases hf : jobjSize dm2 with
  | zero =>
    rw [jobjSize_nil_of_le_zero (le_of_eq (hsz.trans hf)),
        jobjSize_nil_of_le_zero (le_of_eq hf)]
  | succ g =>
    simp only [containsTimeTypeF]
    refine bool_or_congr (bool_or_congr (bool_or_congr
      (bool_or_congr (bool_or_congr ?_ ?_) ?_) ?_) ?_) ?_
    · rw [lookupJ_eq_of_forall2 h "format" (by decide)]
    · rcases lookupJ_props_rel h with heq | ⟨p1, p2, hp1, hp2, hpp⟩
      · rw [heq]
      · rw [hp1, hp2]
        have hlt := jvalSize_lookupJ hp1
        simp only [jvalSize] at hlt
        have hb : jobjSize p1 ≤ g := by omega
        have := containsTimePropsF_perm hpp g hb
        exact this
    · rw [lookupJ_eq_of_forall2 h "items" (by decide)]
    · rw [lookupJ_eq_of_forall2 h "anyOf" (by decide)]
    · rw [lookupJ_eq_of_forall2 h "oneOf" (by decide)]
    · rw [lookupJ_eq_of_forall2 h "allOf" (by decide)]

/-- The type resolver reads its fragment only through non-`properties`
key lookups, so it is invariant under reordering the `properties` map. -/
theorem determineGoTypeF_cong {dm1 dm2 : JObj}
    (h : List.Forall₂ propEntryEq dm1 dm2) (fuel : Nat) (d : JObj) :
    determineGoTypeF fuel dm1 d = determineGoTypeF fuel dm2 d := by
  cases fuel with
  | zero => rfl
  | succ g =>
    simp only [determineGoTypeF, determineGoTypeFallback, containsKeyJ,
               lookupJ_eq_of_forall2 h "$ref" (by decide),
               lookupJ_eq_of_forall2 h "type" (by decide),
               lookupJ_eq_of_forall2 h "items" (by decide),
               lookupJ_eq_of_forall2 h "format" (by decide),
               lookupJ_eq_of_forall2 h "additionalProperties" (by decide),
               lookupJ_eq_of_forall2 h "oneOf" (by decide),
               lookupJ_eq_of_forall2 h "anyOf" (by decide),
               lookupJ_eq_of_forall2 h "allOf" (by decide),
               lookupJ_eq_of_forall2 h "const" (by decide),
               lookupJ_eq_of_forall2 h "enum" (by decide)]

theorem determineGoType_cong {dm1 dm2 : JObj}
    (h : List.Forall₂ propEntryEq dm1 dm2) (d1 d2 : JObj) :
    determineGoType dm1 d1 = determineGoType dm2 d2 := by
  unfold determineGoType
  rw [jobjSize_eq_of_forall2 h, determineGoTypeF_cong h (jobjSize dm2) d1,
      determineGoTypeF_defs_irrel (jobjSize dm2) dm2 d1 d2]

theorem topLevelEnumValues_cong {dm1 dm2 : JObj}
    (h : List.Forall₂ propEntryEq dm1 dm2) :
    topLevelEnumValues dm1 = topLevelEnumValues dm2 := by
  simp only [topLevelEnumValues, lookupJ_eq_of_forall2 h "enum" (by decide)]

theorem generateEnumTypeChunks_cong {dm1 dm2 : JObj}
    (h : List.Forall₂ propEntryEq dm1 dm2) (n : String) (vs : List JValue)
    (acr : AcrTable) (opts : GeneratorOptions) :
    generateEnumTypeChunks n dm1 vs acr opts =
      generateEnumTypeChunks n dm2 vs acr opts := by
  simp only [generateEnumTypeChunks, descriptionChunks,
             lookupJ_eq_of_forall2 h "type" (by decide),
             lookupJ_eq_of_forall2 h "description" (by decide)]

theorem structFieldLine_cong {dm1 dm2 : JObj}
    (h : List.Forall₂ propEntryEq dm1 dm2) (pm : JObj) (pn : String)
    (d1 d2 : JObj) (acr : AcrTable) :
    structFieldLine dm1 pm pn d1 acr = structFieldLine dm2 pm pn d2 acr := by
  simp only [structFieldLine, requiredSetOf,
             lookupJ_eq_of_forall2 h "required" (by decide),
             resolvedPropType_defs_irrel pm pn d1 d2 acr]

theorem structFieldLines_cong {dm1 dm2 : JObj}
    (h : List.Forall₂ propEntryEq dm1 dm2)
    (hnd : ∀ p, asObj (lookupJ dm1 "properties") = some p → (keysOf p).Nodup)
    (d1 d2 : JObj) (acr : AcrTable) :
    structFieldLines dm1 d1 acr = structFieldLines dm2 d2 acr := by
  have hsf : ∀ pm pn, structFieldLine dm1 pm pn d1 acr = structFieldLine dm2 pm pn d2 acr :=
    fun pm pn => structFieldLine_cong h pm pn d1 d2 acr
  rcases lookupJ_props_rel h with heq | ⟨p1, p2, hp1, hp2, hpp⟩
  · simp only [structFieldLines, heq, hsf]
  · have hlook : ∀ pn, lookupJ p1 pn = lookupJ p2 pn := by
      intro pn
      rw [lookupJ_eq_lookupA p1 pn, lookupJ_eq_lookupA p2 pn]
      exact lookupA_eq_of_perm hpp
        (pairs_coherent_of_nodup_keys (hnd p1 (by rw [hp1]; exact rfl))) pn
    have hsort : sortStrings (keysOf p1) = sortStrings (keysOf p2) :=
      sortStrings_eq_of_perm (hpp.map Prod.fst)
    simp only [structFieldLines, hp1, hp2, asObj, hsort, hlook, hsf]

theorem generateComplexTypeChunks_cong {dm1 dm2 : JObj}
    (h : List.Forall₂ propEntryEq dm1 dm2)
    (hnd : ∀ p, asObj (lookupJ dm1 "properties") = some p → (keysOf p).Nodup)
    (n : String) (d1 d2 : JObj) (acr : AcrTable) (opts : GeneratorOptions) :
    generateComplexTypeChunks n dm1 d1 acr opts =
      generateComplexTypeChunks n dm2 d2 acr opts := by
  simp only [generateComplexTypeChunks, descriptionChunks,
             lookupJ_eq_of_forall2 h "description" (by decide),
             lookupJ_eq_of_forall2 h "type" (by decide),
             containsKeyJ_eq_of_forall2 h "properties",
             containsKeyJ_eq_of_forall2 h "anyOf",
             containsKeyJ_eq_of_forall2 h "oneOf",
             containsKeyJ_eq_of_forall2 h "allOf",
             determineGoType_cong h d1 d2,
             structFieldLines_cong h hnd d1 d2 acr]
theorem any_congr_forall2 {R : α → α → Prop} {l1 l2 : List α}
    (h : List.Forall₂ R l1 l2) {p : α → Bool}
    (hp : ∀ a b, R a b → p a = p b) : l1.any p = l2.any p := by
  induction h with
  | nil => rfl
  | @cons a b t1 t2 hab ht ih => simp [List.any_cons, hp a b hab, ih]

theorem flatMap_perm_of_forall2 {R : α → α → Prop} {l1 l2 : List α}
    (h : List.Forall₂ R l1 l2) {f : α → List β}
    (hf : ∀ a b, R a b → (f a).Perm (f b)) : (l1.flatMap f).Perm (l2.flatMap f) := by
  induction h with
  | nil => exact List.Perm.refl _
  | @cons a b t1 t2 hab ht ih =>
    rw [List.flatMap_cons, List.flatMap_cons]
    exact (hf a b hab).append ih

/-- A definition contributes the same inline-enum records, up to order,
when its `properties` map is reordered. -/
theorem enumEntriesOfDef_perm {v1 v2 : JValue} (h : defValEq v1 v2) (acr : AcrTable) :
    (enumEntriesOfDef acr v1).Perm (enumEntriesOfDef acr v2) := by
  rcases h with rfl | ⟨dm1, dm2, rfl, rfl, hFd⟩
  · exact List.Perm.refl _
  · rcases lookupJ_props_rel hFd with heq | ⟨p1, p2, h1, h2, hpp⟩
    · simp only [enumEntriesOfDef, heq]
      exact List.Perm.refl _
    · simp only [enumEntriesOfDef, h1, h2, asObj]
      exact hpp.filterMap _

theorem allEnumEntries_perm_of_forall2 {L1 L2 : List (String × JValue)}
    (hF : List.Forall₂ defEntryEq L1 L2) (acr : AcrTable) :
    (allEnumEntries acr L1).Perm (allEnumEntries acr L2) :=
  flatMap_perm_of_forall2 hF (fun _ b hab => enumEntriesOfDef_perm hab.2 acr)

theorem headerChunk_eq_of_forall2 {L1 L2 : List (String × JValue)}
    (hF : List.Forall₂ defEntryEq L1 L2) (opts : GeneratorOptions) :
    headerChunk L1 opts = headerChunk L2 opts := by
  simp only [headerChunk]
  rw [any_congr_forall2 hF ?_]
  intro d1 d2 hd
  rcases hd.2 with heq | ⟨dm1, dm2, h1, h2, hFd⟩
  · rw [heq]
  · rw [h1, h2]
    exact containsTimeType_cong hFd

theorem processedOf_eq_of_forall2 {L1 L2 : List (String × JValue)}
    (hF : List.Forall₂ defEntryEq L1 L2) (inlineNames : List String) (n : String) :
    processedOf inlineNames L1 n = processedOf inlineNames L2 n := by
  rcases lookupA_rel_of_forall2 hF n with ⟨h1, h2⟩ | ⟨v1, v2, h1, h2, hv⟩
  · simp only [processedOf, h1, h2]
  · rcases hv with rfl | ⟨dmA, dmB, rfl, rfl, hFd⟩
    · simp only [processedOf, h1, h2]
    · simp only [processedOf, h1, h2, asObj, topLevelEnumValues_cong hFd]

theorem enumDef_section_eq_of_forall2 {L1 L2 : List (String × JValue)}
    (hF : List.Forall₂ defEntryEq L1 L2) (acr : AcrTable) (opts : GeneratorOptions) :
    enumDefChunksOf L1 acr opts = enumDefChunksOf L2 acr opts := by
  unfold enumDefChunksOf
  rw [show keysOf L1 = keysOf L2 from keysOf_eq_of_forall2 hF]
  apply flatMap_congr_mem
  intro n _
  rcases lookupA_rel_of_forall2 hF n with ⟨h1, h2⟩ | ⟨v1, v2, h1, h2, hv⟩
  · rw [h1, h2]
  · rcases hv with rfl | ⟨dmA, dmB, rfl, rfl, hFd⟩
    · rw [h1, h2]
    · have hg : ∀ vs, generateEnumTypeChunks n dmA vs acr opts =
          generateEnumTypeChunks n dmB vs acr opts :=
        fun vs => generateEnumTypeChunks_cong hFd n vs acr opts
      simp only [h1, h2, asObj, topLevelEnumValues_cong hFd, hg]

theorem complex_section_eq_of_forall2 {L1 L2 : List (String × JValue)}
    (hF : List.Forall₂ defEntryEq L1 L2) (hpn : PropsKeysNodup L1)
    (inlineNames : List String) (acr : AcrTable) (opts : GeneratorOptions) :
    complexChunksOf inlineNames L1 acr opts =
      complexChunksOf inlineNames L2 acr opts := by
  unfold complexChunksOf
  rw [show keysOf L1 = keysOf L2 from keysOf_eq_of_forall2 hF]
  apply flatMap_congr_mem
  intro n _
  have hproc := processedOf_eq_of_forall2 hF inlineNames n
  rcases lookupA_rel_of_forall2 hF n with ⟨h1, h2⟩ | ⟨v1, v2, h1, h2, hv⟩
  · simp only [h1, h2, asObj]
  · have hgen : ∀ dm, generateComplexTypeChunks n dm L1 acr opts =
        generateComplexTypeChunks n dm L2 acr opts :=
      fun dm => generateComplexTypeChunks_defs_irrel n dm L1 L2 acr opts
    rcases hv with rfl | ⟨dmA, dmB, rfl, rfl, hFd⟩
    · simp only [h1, h2, hproc, hgen]
    · have hndA : ∀ p, asObj (lookupJ dmA "properties") = some p → (keysOf p).Nodup := by
        intro p hp
        exact hpn (n, .obj dmA) (lookupA_mem h1) dmA p rfl hp
      have hgc : generateComplexTypeChunks n dmA L1 acr opts =
          generateComplexTypeChunks n dmB L2 acr opts :=
        generateComplexTypeChunks_cong hFd hndA n L1 L2 acr opts
      simp only [h1, h2, asObj, hproc, hgc]

/-- Generation is invariant under reordering each definition's
`properties` map (the definitions list held pointwise related). -/
theorem generateFromDefs_eq_of_forall2 {L1 L2 : List (String × JValue)}
    (hF : List.Forall₂ defEntryEq L1 L2) (hpn : PropsKeysNodup L1)
    (opts : GeneratorOptions) (hco : EnumCoherent (mergedAcr opts) L1) :
    generateFromDefs L1 opts = generateFromDefs L2 opts := by
  have hco' : ∀ a ∈ allEnumEntries (mergedAcr opts) L1,
      ∀ b ∈ allEnumEntries (mergedAcr opts) L1, a.1 = b.1 → a.2 = b.2 := hco
  have hE := allEnumEntries_perm_of_forall2 hF (mergedAcr opts)
  simp only [generateFromDefs]
  rw [headerChunk_eq_of_forall2 hF opts,
      inline_section_eq hE opts hco',
      enumDef_section_eq_of_forall2 hF (mergedAcr opts) opts,
      sorted_inline_keys_eq hE,
      complex_section_eq_of_forall2 hF hpn
        (sortStrings (keysOf (extractInlineEnums L2 (mergedAcr opts))))
        (mergedAcr opts) opts]
/-- C1, amended: the generated output is byte-identical across re-runs —
invariant under reordering the collected definitions map and each
definition's `properties` map (the two collections Go map iteration
ranges over, modelled by `defsEquiv`) — provided the definition names are
distinct, every `properties` map has distinct keys, and any two
qualifying properties (in the same or different definitions) that derive
the same inline-enum name carry identical enum records; the
order-dependence exhibited by `c1_counterexample_order_dependent` is
confined to incoherent same-named inline enums. -/
theorem c1_amended_perm_invariant
    (L1 L2 : List (String × JValue)) (opts : GeneratorOptions)
    (heq : defsEquiv L1 L2) (hnd : (keysOf L1).Nodup)
    (hpn : PropsKeysNodup L1) (hco : EnumCoherent (mergedAcr opts) L1) :
    generateFromDefs L1 opts = generateFromDefs L2 opts := by
  obtain ⟨L3, hF, hperm⟩ := heq
  have hkeys : keysOf L1 = keysOf L3 := keysOf_eq_of_forall2 hF
  have hnd3 : (keysOf L3).Nodup := hkeys ▸ hnd
  have hEA := allEnumEntries_perm_of_forall2 hF (mergedAcr opts)
  have hco3 : EnumCoherent (mergedAcr opts) L3 := fun a ha b hb hk =>
    hco a (hEA.mem_iff.mpr ha) b (hEA.mem_iff.mpr hb) hk
  rw [generateFromDefs_eq_of_forall2 hF hpn opts hco,
      generateFromDefs_eq_of_perm L3 L2 opts hperm hnd3 hco3]

/-- An inline-enum property `status` with values `X`, `Y`. -/
def c1PropStatus : String × JValue :=
  ("status", .obj [("enum", .arr [.str "X", .str "Y"])])

/-- A second property `Status` of the same definition whose synthesized
name collides with that of `c1PropStatus` and whose record is identical. -/
def c1PropStatusU : String × JValue :=
  ("Status", .obj [("enum", .arr [.str "X", .str "Y"])])

/-- Definition `A`: two same-named inline-enum properties, one order. -/
def c1DefValA : JValue :=
  .obj [("type", .str "object"),
        ("properties", .obj [c1PropStatus, c1PropStatusU])]

/-- Definition `A` with its `properties` map iterated in the other order. -/
def c1DefValA2 : JValue :=
  .obj [("type", .str "object"),
        ("properties", .obj [c1PropStatusU, c1PropStatus])]

/-- Definition `B`: a single `status` inline-enum property with the same
record. -/
def c1DefVal : JValue :=
  .obj [("type", .str "object"),
        ("properties", .obj [("status", .obj [("enum", .arr [.str "X", .str "Y"])])])]

/-- The shared inline-enum record all four properties contribute. -/
def c1Rec : InlineEnumDef :=
  ⟨[.str "X", .str "Y"], [("description", .null), ("type", .str "string")]⟩

def c1DefsA : List (String × JValue) := [("A", c1DefValA), ("B", c1DefVal)]

/-- `c1DefsA` after a fresh iteration of `A`'s `properties` map. -/
def c1DefsMid : List (String × JValue) := [("A", c1DefValA2), ("B", c1DefVal)]

/-- `c1DefsMid` after a fresh iteration of the definitions map. -/
def c1DefsB : List (String × JValue) := [("B", c1DefVal), ("A", c1DefValA2)]

/-- Witness for C1 (amended) at a schema whose definition `A` carries two
properties deriving the same inline-enum name with identical records:
both the properties-map reorder and the definitions-map reorder are
exercised, and the output is unchanged. -/
theorem c1_amended_witness :
    defsEquiv c1DefsA c1DefsB ∧ (keysOf c1DefsA).Nodup ∧
    PropsKeysNodup c1DefsA ∧ EnumCoherent (mergedAcr defaultOptions) c1DefsA ∧
    generateFromDefs c1DefsA defaultOptions =
      generateFromDefs c1DefsB defaultOptions := by
  have heq : defsEquiv c1DefsA c1DefsB := by
    refine ⟨c1DefsMid, ?_, List.Perm.swap ("B", c1DefVal) ("A", c1DefValA2) []⟩
    refine List.Forall₂.cons ⟨rfl, Or.inr ?_⟩
      (List.Forall₂.cons ⟨rfl, Or.inl rfl⟩ List.Forall₂.nil)
    refine ⟨[("type", .str "object"), ("properties", .obj [c1PropStatus, c1PropStatusU])],
            [("type", .str "object"), ("properties", .obj [c1PropStatusU, c1PropStatus])],
            rfl, rfl, ?_⟩
    refine List.Forall₂.cons ⟨rfl, Or.inl rfl⟩
      (List.Forall₂.cons ⟨rfl, Or.inr ?_⟩ List.Forall₂.nil)
    exact ⟨rfl, [c1PropStatus, c1PropStatusU], [c1PropStatusU, c1PropStatus],
           rfl, rfl, List.Perm.swap c1PropStatusU c1PropStatus []⟩
  have hnd : (keysOf c1DefsA).Nodup := by decide
  have hpn : PropsKeysNodup c1DefsA := by
    intro d hd dm p hdm hp
    rcases List.mem_pair.mp hd with rfl | rfl
    · have hdm2 : JValue.obj [("type", .str "object"),
          ("properties", .obj [c1PropStatus, c1PropStatusU])] = .obj dm := hdm
      injection hdm2 with hdm3
      subst hdm3
      have hval : asObj (lookupJ [("type", JValue.str "object"),
          ("properties", JValue.obj [c1PropStatus, c1PropStatusU])] "properties") =
          some [c1PropStatus, c1PropStatusU] := rfl
      rw [hval] at hp
      injection hp with hp2
      subst hp2
      decide
    · have hdm2 : JValue.obj [("type", .str "object"),
          ("properties", .obj [("status", .obj [("enum", .arr [.str "X", .str "Y"])])])] =
          .obj dm := hdm
      injection hdm2 with hdm3
      subst hdm3
      have hval : asObj (lookupJ [("type", JValue.str "object"),
          ("properties", JValue.obj [("status", JValue.obj [("enum",
            JValue.arr [.str "X", .str "Y"])])])] "properties") =
          some [("status", JValue.obj [("enum", JValue.arr [.str "X", .str "Y"])])] := rfl
      rw [hval] at hp
      injection hp with hp2
      subst hp2
      decide
  have hco : EnumCoherent (mergedAcr defaultOptions) c1DefsA := by
    intro e1 h1 e2 h2 _
    have hE : allEnumEntries (mergedAcr defaultOptions) c1DefsA =
        [(deriveEnumTypeName [.str "X", .str "Y"] "status" (mergedAcr defaultOptions), c1Rec),
         (deriveEnumTypeName [.str "X", .str "Y"] "Status" (mergedAcr defaultOptions), c1Rec),
         (deriveEnumTypeName [.str "X", .str "Y"] "status" (mergedAcr defaultOptions), c1Rec)] :=
      rfl
    rw [hE] at h1 h2
    simp only [List.mem_cons, List.not_mem_nil, or_false] at h1 h2
    rcases h1 with rfl | rfl | rfl <;> rcases h2 with h | h | h <;> subst h <;> rfl
  exact ⟨heq, hnd, hpn, hco,
    c1_amended_perm_invariant c1DefsA c1DefsB defaultOptions heq hnd hpn hco⟩

end JrpcGen
